import Mathlib

set_option autoImplicit false
set_option maxRecDepth 8192

namespace CflatGC

/-! Shallow embedding of `src/runtime.cc`, the cflat runtime library with its
semispace (Cheney) garbage collector.  Memory is modelled word-addressed: one
`Nat` address denotes one 64-bit word (the C code manipulates byte addresses
that are always word-aligned and only compares, subtracts and offsets them
word-wise, so the word-level view is faithful).  Unsigned machine words are
modelled as `Nat`; all values the runtime manipulates are far below 2^63, where
the occasional signed reinterpretation in the C code (`long len = header >> 3`)
is the identity. -/

/-- A word-addressed memory. -/
abbrev Mem := Nat → Nat

/-- Store one word. -/
def Mem.write (m : Mem) (a v : Nat) : Mem := fun x => if x = a then v else m x

/-- `memcpy` of `n` words from `src` to `dst`.  The runtime only copies from
from-space to to-space, which are disjoint, so the non-overlapping reading of
`memcpy` is exact. -/
def Mem.copyWords (m : Mem) (dst src n : Nat) : Mem :=
  fun x => if dst ≤ x ∧ x < dst + n then m (src + (x - dst)) else m x

/-- `_cflat_zero_words`: zero out `num_words` words starting from `start`. -/
def _cflat_zero_words (m : Mem) (start num_words : Nat) : Mem :=
  fun x => if start ≤ x ∧ x < start + num_words then 0 else m x

/-- One line of the runtime's log (`std::cout` output), as structured data.
Constructors mirror the line templates printed by `runtime.cc`; the four
constructors `copyingObject`, `movingObject`, `copyingForwarded`, `forwardedTo`
are the lines printed at `----` depth by `process_transitive`. -/
inductive LogEvent where
  | allocFirst (n : Nat) (ok : Bool)
  | allocSecond (n : Nat) (ok : Bool)
  | frameLine (idx count : Nat)
  | ptrOffset (i : Nat)
  | copyingObject (rel header : Nat)
  | movingObject (fromRel toRel : Nat)
  | copyingForwarded (rel : Nat)
  | forwardedTo (rel : Nat)
  | scanStart
  | scanHeader (header : Nat)
  | scanAdvance (k : Nat)
  | swapLine (live : Nat)
deriving DecidableEq, Repr

/-- The mutable global state of the runtime: the statics `heap_size`,
`from_space`, `to_space`, `bump_ptr`, `base_frame_ptr`, `gc_log` of
`runtime.cc`, together with the machine memory (heap words and stack words
live in the same address space) and the log emitted so far. -/
structure Runtime where
  heap_size : Nat
  from_space : Nat
  to_space : Nat
  bump_ptr : Nat
  base_frame_ptr : Nat
  gc_log : Bool
  mem : Mem
  log : List LogEvent

/-- Append log lines when `gc_log` is set (every `if (gc_log) std::cout ...`). -/
def Runtime.emit (s : Runtime) (es : List LogEvent) : Runtime :=
  if s.gc_log then { s with log := s.log ++ es } else s

/-- `get_payload_words` from `runtime.cc`: decode the payload size in words
from a header word.  Tags: 0 = struct (atomic, or pointer-struct in the TS3
encoding when the upper size bits are nonzero), 2 = atomic array,
4 = pointer-struct (TS4 encoding), 6 = pointer array. -/
def get_payload_words (header : Nat) : Nat :=
  let len := header >>> 3
  let tag := header % 8
  if tag = 4 then
    len >>> 5
  else if tag = 0 then
    let size := len >>> 5
    if 0 < size then size else len * 2
  else
    len

/-- `process_transitive` from `runtime.cc`: forward the pointer stored at
address `slot_ptr`, copying its target from from-space into to-space at
`free_ptr` if it has not been copied yet.  Returns the new state and the new
free cursor (the C function mutates `free_ptr` through a reference). -/
def process_transitive (s : Runtime) (slot_ptr free_ptr : Nat) : Runtime × Nat :=
  let obj_addr := s.mem slot_ptr
  if obj_addr = 0 then
    (s, free_ptr)
  else
    let old_start := s.from_space
    let old_end := s.from_space + s.heap_size / 2
    if obj_addr < old_start ∨ old_end ≤ obj_addr then
      (s, free_ptr)
    else
      let header_addr := obj_addr - 1
      let header := s.mem header_addr
      let new_start := s.to_space
      let new_end := s.to_space + s.heap_size / 2
      if new_start ≤ header ∧ header < new_end then
        let s1 := { s with mem := s.mem.write slot_ptr header }
        (s1.emit [LogEvent.copyingForwarded (obj_addr - s.from_space),
                  LogEvent.forwardedTo (header - s.to_space)], free_ptr)
      else
        let payload_words := get_payload_words header
        let copy_size := 1 + payload_words
        let dest_obj := free_ptr + 1
        let s1 := s.emit [LogEvent.copyingObject (obj_addr - s.from_space) header,
                          LogEvent.movingObject (obj_addr - s.from_space)
                                                (dest_obj - s.to_space)]
        let m1 := s1.mem.copyWords free_ptr header_addr copy_size
        let m2 := m1.write header_addr dest_obj
        let m3 := m2.write slot_ptr dest_obj
        ({ s1 with mem := m3 }, free_ptr + copy_size)

/-- Process the fields of a scanned object at payload offsets drawn from
`offs`, in order (`fields` is the address of payload word 0). -/
def processFields (s : Runtime) (free fields : Nat) : List Nat → Runtime × Nat
  | [] => (s, free)
  | i :: rest =>
      let r := process_transitive s (fields + i) free
      processFields r.1 r.2 fields rest

/-- One iteration of the scan loop of `gc_collect`: scan the object whose
header sits at `scan`, forwarding its pointer fields according to its tag,
then advance the scan cursor past it.  Returns `(state, scan', free')`. -/
def scan_object (s : Runtime) (scan free : Nat) : Runtime × Nat × Nat :=
  let header := s.mem scan
  let payload_words := get_payload_words header
  let tag := header % 8
  let s0 := s.emit [LogEvent.scanHeader header]
  let fields := scan + 1
  let r :=
    if tag = 6 then
      processFields s0 free fields (List.range payload_words)
    else if tag = 4 then
      let len := header >>> 3
      let ptr_bitmap := len % 32
      if 0 < ptr_bitmap then
        processFields s0 free fields (List.range (min (ptr_bitmap + 1) payload_words))
      else
        (s0, free)
    else if tag = 0 then
      let len := header >>> 3
      let size := len >>> 5
      let ptr_bitmap := len % 32
      if 0 < size ∧ 0 < ptr_bitmap then
        processFields s0 free fields
          (((List.range (min payload_words 5)).filter
              (fun i => i < payload_words - 1 ∧ ptr_bitmap.testBit i)).map
            (fun i => i + 1))
      else
        (s0, free)
    else
      (s0, free)
  let size := 1 + payload_words
  (r.1.emit [LogEvent.scanAdvance size], scan + size, r.2)

/-- One guarded step of the scan loop (`while (scan_ptr < free_ptr)`): scan
the next object if the cursor has not caught up with the free cursor,
otherwise do nothing. -/
def scanStep (st : Runtime × Nat × Nat) : Runtime × Nat × Nat :=
  if st.2.1 < st.2.2 then scan_object st.1 st.2.1 st.2.2 else st

/-- The scan loop, as `k` guarded steps (fuel-indexed; once the cursor meets
the free cursor further steps are the identity, so any sufficiently large `k`
yields the loop's result). -/
def scanRun : Nat → Runtime × Nat × Nat → Runtime × Nat × Nat
  | 0, st => st
  | k + 1, st => scanRun k (scanStep st)

/-- Process the root slots `frame - 2 - i` of one stack frame, for the offsets
`i` drawn from `offs` in order (the C loop runs `i` from `0` to the root
count, exclusive). -/
def processRootSlots (s : Runtime) (free frame : Nat) : List Nat → Runtime × Nat
  | [] => (s, free)
  | i :: rest =>
      let s1 := s.emit [LogEvent.ptrOffset i]
      let r := process_transitive s1 (frame - 2 - i) free
      processRootSlots r.1 r.2 frame rest

/-- The stack walk of `gc_collect` (fuel-indexed): starting from frame base
`frame`, while `frame < base` read the root count at `frame - 1`, process that
frame's root slots, then follow the saved previous frame base stored at offset
0 (`frame = *frame`).  The `if (frame == base_frame_ptr) break;` in the C loop
body is dead code (the loop condition already guarantees `frame < base`). -/
def walkFrames : Nat → Runtime → Nat → Nat → Nat → Nat → Runtime × Nat
  | 0, s, _, _, _, free => (s, free)
  | fuel + 1, s, base, frame, idx, free =>
      if frame < base then
        let count := s.mem (frame - 1)
        let s1 := s.emit [LogEvent.frameLine idx count]
        let r := processRootSlots s1 free frame (List.range count)
        walkFrames fuel r.1 base (r.1.mem frame) (idx + 1) r.2
      else
        (s, free)

/-- The chain of frame bases the stack walk visits, read off a fixed memory:
`frame`, then `m frame`, and so on, while the base stays below `base`
(fuel-indexed). -/
def frameChain : Nat → Mem → Nat → Nat → List Nat
  | 0, _, _, _ => []
  | fuel + 1, m, base, frame =>
      if frame < base then frame :: frameChain fuel m base (m frame) else []

/-- Reference form of the stack walk: process the given list of
`(frame base, root count)` pairs in order.  `root_walk_visits_chain_in_order`
shows the walk of `gc_collect` equals this on the chain read off the initial
memory. -/
def processFramesC (s : Runtime) (free idx : Nat) : List (Nat × Nat) → Runtime × Nat
  | [] => (s, free)
  | (f, count) :: rest =>
      let s1 := s.emit [LogEvent.frameLine idx count]
      let r := processRootSlots s1 free f (List.range count)
      processFramesC r.1 r.2 (idx + 1) rest

/-- Sequential forwarding of a list of slot addresses (the primitive both GC
phases are built from: each root slot and each scanned field is handed to
`process_transitive` in program order). -/
def processSlots (s : Runtime) (free : Nat) : List Nat → Runtime × Nat
  | [] => (s, free)
  | t :: rest =>
      let r := process_transitive s t free
      processSlots r.1 r.2 rest

/-- The two traversal phases of `gc_collect` (roots, then scan), returning the
final state together with the final scan and free cursors.  `frameFuel` and
`scanFuel` bound the two loops; with enough fuel they equal the C loops. -/
def gc_phases (frameFuel scanFuel : Nat) (s : Runtime) (top_frame : Nat) :
    Runtime × Nat × Nat :=
  let free0 := s.to_space
  let scan0 := s.to_space
  let r1 := walkFrames frameFuel s s.base_frame_ptr top_frame 0 free0
  let s1 := r1.1.emit [LogEvent.scanStart]
  scanRun scanFuel (s1, scan0, r1.2)

/-- `gc_collect` from `runtime.cc`: walk the roots, run the scan loop, log the
live word count, swap the two spaces and reset the bump cursor to the end of
the copied data. -/
def gc_collect (frameFuel scanFuel : Nat) (s : Runtime) (top_frame : Nat) :
    Runtime :=
  let r := gc_phases frameFuel scanFuel s top_frame
  let live_words := r.2.2 - r.1.to_space
  let s3 := r.1.emit [LogEvent.swapLine live_words]
  let s4 := { s3 with from_space := s3.to_space, to_space := s3.from_space }
  { s4 with bump_ptr := s4.from_space + live_words }

/-- The observable result of `_cflat_panic`: the message printed to stdout and
the exit status (always 0; the process exits normally). -/
structure PanicInfo where
  message : String
  exitCode : Nat
deriving DecidableEq, Repr

/-- `_cflat_panic` from `runtime.cc`: print the message and `exit(0)`. -/
def _cflat_panic (message : String) : PanicInfo :=
  { message := message, exitCode := 0 }

/-- Result of one `_cflat_alloc` call: the returned payload pointer (`none`
when the call panics instead of returning), the state after the call, how many
times the collector ran during the call, and the panic outcome if any. -/
structure AllocOutcome where
  result : Option Nat
  state : Runtime
  gcRuns : Nat
  panic : Option PanicInfo

/-- `_cflat_alloc` from `runtime.cc`: try a bump allocation of `num_words`
words; on failure run `gc_collect` once (rooted at `top_frame`, the frame base
of the caller) and retry; if the retry also fails, panic with "out of memory".
A successful attempt returns the old bump cursor, advances the bump cursor by
`num_words` and zeroes the `num_words` words it returns. -/
def _cflat_alloc (frameFuel scanFuel : Nat) (s : Runtime)
    (top_frame num_words : Nat) : AllocOutcome :=
  let from_end := s.from_space + s.heap_size / 2
  if s.bump_ptr + num_words ≤ from_end then
    let s0 := s.emit [LogEvent.allocFirst num_words true]
    let result := s0.bump_ptr
    let s' := { s0 with bump_ptr := s0.bump_ptr + num_words,
                        mem := _cflat_zero_words s0.mem result num_words }
    { result := some result, state := s', gcRuns := 0, panic := none }
  else
    let s0 := s.emit [LogEvent.allocFirst num_words false]
    let s1 := gc_collect frameFuel scanFuel s0 top_frame
    let from_end2 := s1.from_space + s1.heap_size / 2
    if s1.bump_ptr + num_words ≤ from_end2 then
      let s2 := s1.emit [LogEvent.allocSecond num_words true]
      let result := s2.bump_ptr
      let s' := { s2 with bump_ptr := s2.bump_ptr + num_words,
                          mem := _cflat_zero_words s2.mem result num_words }
      { result := some result, state := s', gcRuns := 1, panic := none }
    else
      let s2 := s1.emit [LogEvent.allocSecond num_words false]
      { result := none, state := s2, gcRuns := 1,
        panic := some (_cflat_panic "out of memory") }

/-- `INT_MAX` on the target platform (32-bit `int`). -/
def INT_MAX : Nat := 2147483647

/-- `::isdigit` in the C locale, on the ASCII bytes the heap-size string can
contain. -/
def isDigitChar (c : Char) : Bool := 48 ≤ c.toNat && c.toNat ≤ 57

/-- Numeric value of a string of decimal digits. -/
def digitsToNat (cs : List Char) : Nat :=
  cs.foldl (fun acc c => acc * 10 + (c.toNat - 48)) 0

/-- Outcome of `_cflat_init_gc`'s configuration validation: a `_cflat_panic`
(message printed, exit status 0), an uncaught C++ exception
(`std::out_of_range` thrown by `stoi`, which nothing catches, so the process
terminates abnormally via `std::terminate`/`abort` with a nonzero status), or
successful validation of the heap size. -/
inductive InitResult where
  | panicExit (info : PanicInfo)
  | uncaughtException
  | ok (heap_size : Nat) (gc_log : Bool)
deriving DecidableEq, Repr

/-- The configuration-validation prefix of `_cflat_init_gc` from `runtime.cc`,
as a function of the values of the environment variables `CFLAT_HEAP_WORDS`
and `CFLAT_GC_LOG` (`none` when a variable is unset; `get_env` maps an unset
variable to `""`).  `heap_size` is a zero-initialized static, so when the
all-digits check fails it stays 0 and the `== 0` check panics; when the check
succeeds, `stoi` converts the digits but throws `std::out_of_range` if the
value exceeds `INT_MAX`. -/
def _cflat_init_gc (heap_words_env gc_log_env : Option String) : InitResult :=
  let gcLog := gc_log_env.getD "" = "1"
  let heap_size_str := heap_words_env.getD ""
  if heap_size_str = "" then
    InitResult.panicExit (_cflat_panic "The CFLAT_HEAP_WORDS environment variable must be set to the desired size of the heap (in words).")
  else if heap_size_str.data.all isDigitChar then
    if INT_MAX < digitsToNat heap_size_str.data then
      InitResult.uncaughtException
    else
      let heap_size := digitsToNat heap_size_str.data
      if heap_size = 0 ∨ heap_size % 2 = 1 then
        InitResult.panicExit (_cflat_panic "CFLAT_HEAP_WORDS must contain a positive even number with no trailing spaces.")
      else
        InitResult.ok heap_size gcLog
  else
    InitResult.panicExit (_cflat_panic "CFLAT_HEAP_WORDS must contain a positive even number with no trailing spaces.")

/-- The globals `heap_size`, `from_space`, `to_space`, `bump_ptr`,
`base_frame_ptr`, `gc_log` are untouched by a state transformation; only `mem`
and `log` may change. -/
def sameGlobals (s s' : Runtime) : Prop :=
  s'.heap_size = s.heap_size ∧ s'.from_space = s.from_space ∧
  s'.to_space = s.to_space ∧ s'.bump_ptr = s.bump_ptr ∧
  s'.base_frame_ptr = s.base_frame_ptr ∧ s'.gc_log = s.gc_log

/-- Count of `---- copying object ... with header <H>` log lines whose
relative address is `r` (one such line is printed per fresh copy of the object
at from-space offset `r`). -/
def copyCount (r : Nat) (l : List LogEvent) : Nat :=
  l.countP (fun e => match e with
    | LogEvent.copyingObject a _ => a = r
    | _ => false)

/-- Total words accounted by the `---- copying object` log lines: each fresh
copy prints one such line carrying the object's header, whose decoded size
(`1` header word plus the payload) is what the free cursor advances by. -/
def copiedWords (l : List LogEvent) : Nat :=
  (l.map (fun e => match e with
    | LogEvent.copyingObject _ h => 1 + get_payload_words h
    | _ => 0)).sum

/-- Tracking state of one from-space object with payload address `p`
(relative address `rel = p - from_base`) at a point of a collection where the
free cursor is `free`: either the object has not been copied yet — its header
holds no to-space forwarding address and no `---- copying object` line for it
has been printed — or it has been copied exactly once: its header holds a
forwarding address inside to-space, bounded by the free cursor, and exactly
one `---- copying object` line for it exists. -/
def Tracked (p rel : Nat) (s : Runtime) (free : Nat) : Prop :=
  (¬ (s.to_space ≤ s.mem (p - 1) ∧
      s.mem (p - 1) < s.to_space + s.heap_size / 2) ∧
    copyCount rel s.log = 0) ∨
  ((s.to_space ≤ s.mem (p - 1) ∧
      s.mem (p - 1) < s.to_space + s.heap_size / 2) ∧
    s.mem (p - 1) ≤ free ∧ copyCount rel s.log = 1)

/-- State of one slot `t0` that referenced the from-space object `p` before
the collection: it still holds `p` (not yet visited), or `p` has been copied
(its header holds the to-space forwarding address) and `t0` holds exactly
that address. -/
def SlotClause (p t0 : Nat) (s : Runtime) : Prop :=
  s.mem t0 = p ∨
  ((s.to_space ≤ s.mem (p - 1) ∧
      s.mem (p - 1) < s.to_space + s.heap_size / 2) ∧
    s.mem t0 = s.mem (p - 1))

/-- State of a slot `t0` the collection has already processed: the from-space
object `p` has been copied (its header holds a to-space forwarding address)
and `t0` holds exactly that forwarding address. -/
def SlotDone (p t0 : Nat) (s : Runtime) : Prop :=
  (s.to_space ≤ s.mem (p - 1) ∧
    s.mem (p - 1) < s.to_space + s.heap_size / 2) ∧
  s.mem t0 = s.mem (p - 1)

/-! ### Basic lemmas about the embedding -/

theorem Mem.write_self (m : Mem) (a v : Nat) : (m.write a v) a = v := by
  simp [Mem.write]

theorem Mem.write_other (m : Mem) (a v x : Nat) (h : x ≠ a) :
    (m.write a v) x = m x := by
  simp [Mem.write, h]

theorem Runtime.emit_mem (s : Runtime) (es : List LogEvent) :
    (s.emit es).mem = s.mem := by
  unfold Runtime.emit; split <;> rfl

theorem Runtime.emit_heap_size (s : Runtime) (es : List LogEvent) :
    (s.emit es).heap_size = s.heap_size := by
  unfold Runtime.emit; split <;> rfl

theorem Runtime.emit_from_space (s : Runtime) (es : List LogEvent) :
    (s.emit es).from_space = s.from_space := by
  unfold Runtime.emit; split <;> rfl

theorem Runtime.emit_to_space (s : Runtime) (es : List LogEvent) :
    (s.emit es).to_space = s.to_space := by
  unfold Runtime.emit; split <;> rfl

theorem Runtime.emit_bump_ptr (s : Runtime) (es : List LogEvent) :
    (s.emit es).bump_ptr = s.bump_ptr := by
  unfold Runtime.emit; split <;> rfl

theorem Runtime.emit_base_frame_ptr (s : Runtime) (es : List LogEvent) :
    (s.emit es).base_frame_ptr = s.base_frame_ptr := by
  unfold Runtime.emit; split <;> rfl

theorem Runtime.emit_gc_log (s : Runtime) (es : List LogEvent) :
    (s.emit es).gc_log = s.gc_log := by
  unfold Runtime.emit; split <;> rfl

theorem Runtime.emit_log (s : Runtime) (es : List LogEvent) :
    (s.emit es).log = s.log ++ (if s.gc_log then es else []) := by
  unfold Runtime.emit; split <;> simp

theorem sameGlobals_refl (s : Runtime) : sameGlobals s s :=
  ⟨rfl, rfl, rfl, rfl, rfl, rfl⟩

theorem sameGlobals_trans {s1 s2 s3 : Runtime} (h12 : sameGlobals s1 s2)
    (h23 : sameGlobals s2 s3) : sameGlobals s1 s3 := by
  obtain ⟨a1, b1, c1, d1, e1, f1⟩ := h12
  obtain ⟨a2, b2, c2, d2, e2, f2⟩ := h23
  exact ⟨a2.trans a1, b2.trans b1, c2.trans c1, d2.trans d1,
         e2.trans e1, f2.trans f1⟩

theorem sameGlobals_emit (s : Runtime) (es : List LogEvent) :
    sameGlobals s (s.emit es) := by
  unfold Runtime.emit; split
  · exact ⟨rfl, rfl, rfl, rfl, rfl, rfl⟩
  · exact sameGlobals_refl s

/-! Branch equations for `process_transitive`. -/

theorem pt_null (s : Runtime) (t f : Nat) (h : s.mem t = 0) :
    process_transitive s t f = (s, f) := by
  unfold process_transitive
  rw [if_pos h]

theorem pt_foreign (s : Runtime) (t f : Nat) (h0 : ¬ s.mem t = 0)
    (h : s.mem t < s.from_space ∨ s.from_space + s.heap_size / 2 ≤ s.mem t) :
    process_transitive s t f = (s, f) := by
  unfold process_transitive
  rw [if_neg h0, if_pos h]

theorem pt_forwarded (s : Runtime) (t f : Nat) (h0 : ¬ s.mem t = 0)
    (h1 : ¬ (s.mem t < s.from_space ∨ s.from_space + s.heap_size / 2 ≤ s.mem t))
    (h2 : s.to_space ≤ s.mem (s.mem t - 1) ∧
          s.mem (s.mem t - 1) < s.to_space + s.heap_size / 2) :
    process_transitive s t f =
      ({ s with mem := s.mem.write t (s.mem (s.mem t - 1)) }.emit
         [LogEvent.copyingForwarded (s.mem t - s.from_space),
          LogEvent.forwardedTo (s.mem (s.mem t - 1) - s.to_space)], f) := by
  unfold process_transitive
  rw [if_neg h0, if_neg h1, if_pos h2]

theorem pt_fresh (s : Runtime) (t f : Nat) (h0 : ¬ s.mem t = 0)
    (h1 : ¬ (s.mem t < s.from_space ∨ s.from_space + s.heap_size / 2 ≤ s.mem t))
    (h2 : ¬ (s.to_space ≤ s.mem (s.mem t - 1) ∧
             s.mem (s.mem t - 1) < s.to_space + s.heap_size / 2)) :
    process_transitive s t f =
      ({ s.emit [LogEvent.copyingObject (s.mem t - s.from_space) (s.mem (s.mem t - 1)),
                 LogEvent.movingObject (s.mem t - s.from_space) (f + 1 - s.to_space)] with
           mem := ((s.mem.copyWords f (s.mem t - 1)
                      (1 + get_payload_words (s.mem (s.mem t - 1)))).write
                     (s.mem t - 1) (f + 1)).write t (f + 1) },
       f + (1 + get_payload_words (s.mem (s.mem t - 1)))) := by
  unfold process_transitive
  rw [if_neg h0, if_neg h1, if_neg h2]
  simp only [Runtime.emit_mem]

theorem Mem.copyWords_notin (m : Mem) (dst src n x : Nat)
    (h : ¬ (dst ≤ x ∧ x < dst + n)) : m.copyWords dst src n x = m x := by
  simp only [Mem.copyWords]
  rw [if_neg h]

theorem Mem.copyWords_in (m : Mem) (dst src n x : Nat)
    (h1 : dst ≤ x) (h2 : x < dst + n) :
    m.copyWords dst src n x = m (src + (x - dst)) := by
  simp only [Mem.copyWords]
  rw [if_pos ⟨h1, h2⟩]

theorem sameGlobals_setMem (s : Runtime) (m : Mem) :
    sameGlobals s { s with mem := m } :=
  ⟨rfl, rfl, rfl, rfl, rfl, rfl⟩

theorem pt_globals (s : Runtime) (t f : Nat) :
    sameGlobals s (process_transitive s t f).1 := by
  by_cases h0 : s.mem t = 0
  · rw [pt_null s t f h0]; exact sameGlobals_refl s
  · by_cases h1 : s.mem t < s.from_space ∨ s.from_space + s.heap_size / 2 ≤ s.mem t
    · rw [pt_foreign s t f h0 h1]; exact sameGlobals_refl s
    · by_cases h2 : s.to_space ≤ s.mem (s.mem t - 1) ∧
          s.mem (s.mem t - 1) < s.to_space + s.heap_size / 2
      · rw [pt_forwarded s t f h0 h1 h2]
        exact sameGlobals_trans (sameGlobals_setMem s _) (sameGlobals_emit _ _)
      · rw [pt_fresh s t f h0 h1 h2]
        exact sameGlobals_trans (sameGlobals_emit s _) (sameGlobals_setMem _ _)

theorem pt_free_mono (s : Runtime) (t f : Nat) :
    f ≤ (process_transitive s t f).2 := by
  by_cases h0 : s.mem t = 0
  · rw [pt_null s t f h0]
  · by_cases h1 : s.mem t < s.from_space ∨ s.from_space + s.heap_size / 2 ≤ s.mem t
    · rw [pt_foreign s t f h0 h1]
    · by_cases h2 : s.to_space ≤ s.mem (s.mem t - 1) ∧
          s.mem (s.mem t - 1) < s.to_space + s.heap_size / 2
      · rw [pt_forwarded s t f h0 h1 h2]
      · rw [pt_fresh s t f h0 h1 h2]
        exact Nat.le_add_right f _

/-- Footprint of a single `process_transitive` call: only the slot itself, the
header word of the slot's target, and the words copied to (between the old and
the new free cursor) can change. -/
theorem pt_footprint (s : Runtime) (t f x : Nat)
    (hx1 : x ≠ t) (hx2 : x ≠ s.mem t - 1)
    (hx3 : ¬ (f ≤ x ∧ x < (process_transitive s t f).2)) :
    (process_transitive s t f).1.mem x = s.mem x := by
  by_cases h0 : s.mem t = 0
  · rw [pt_null s t f h0]
  · by_cases h1 : s.mem t < s.from_space ∨ s.from_space + s.heap_size / 2 ≤ s.mem t
    · rw [pt_foreign s t f h0 h1]
    · by_cases h2 : s.to_space ≤ s.mem (s.mem t - 1) ∧
          s.mem (s.mem t - 1) < s.to_space + s.heap_size / 2
      · rw [pt_forwarded s t f h0 h1 h2]
        simp only [Runtime.emit_mem]
        exact Mem.write_other _ _ _ _ hx1
      · rw [pt_fresh s t f h0 h1 h2] at hx3 ⊢
        simp only at hx3 ⊢
        rw [Mem.write_other _ _ _ _ hx1, Mem.write_other _ _ _ _ hx2,
            Mem.copyWords_notin _ _ _ _ _ (by omega)]

/-- In the null, foreign and already-forwarded branches the free cursor does
not move; it moves (by the copied size) only when a fresh copy happens. -/
theorem pt_free_eq_of_no_copy (s : Runtime) (t f : Nat)
    (h : s.mem t = 0 ∨
         (s.mem t < s.from_space ∨ s.from_space + s.heap_size / 2 ≤ s.mem t) ∨
         (s.to_space ≤ s.mem (s.mem t - 1) ∧
          s.mem (s.mem t - 1) < s.to_space + s.heap_size / 2)) :
    (process_transitive s t f).2 = f := by
  by_cases h0 : s.mem t = 0
  · rw [pt_null s t f h0]
  · by_cases h1 : s.mem t < s.from_space ∨ s.from_space + s.heap_size / 2 ≤ s.mem t
    · rw [pt_foreign s t f h0 h1]
    · rcases h with h | h | h
      · exact absurd h h0
      · exact absurd h h1
      · rw [pt_forwarded s t f h0 h1 h]

theorem copyCount_append (r : Nat) (l1 l2 : List LogEvent) :
    copyCount r (l1 ++ l2) = copyCount r l1 + copyCount r l2 :=
  List.countP_append _ _ _

theorem processSlots_free_mono (slots : List Nat) (s : Runtime) (f : Nat) :
    f ≤ (processSlots s f slots).2 := by
  induction slots generalizing s f with
  | nil => exact le_refl f
  | cons t rest ih =>
      exact le_trans (pt_free_mono s t f) (ih _ _)

theorem processSlots_globals (slots : List Nat) (s : Runtime) (f : Nat) :
    sameGlobals s (processSlots s f slots).1 := by
  induction slots generalizing s f with
  | nil => exact sameGlobals_refl s
  | cons t rest ih =>
      exact sameGlobals_trans (pt_globals s t f) (ih _ _)

/-! ### Claim theorems -/

/-- **C8.** For every slot whose value is 0 (null) or an address not inside
from-space `[from_base, from_base + H/2)`, `process_transitive` returns
immediately: the whole state — the slot, both heap halves, and the log (in
particular, no `----`-depth line is emitted) — and the free cursor are
unchanged. -/
theorem forward_null_or_foreign_noop (s : Runtime) (t f : Nat)
    (h : s.mem t = 0 ∨ s.mem t < s.from_space ∨
         s.from_space + s.heap_size / 2 ≤ s.mem t) :
    process_transitive s t f = (s, f) := by
  by_cases h0 : s.mem t = 0
  · exact pt_null s t f h0
  · rcases h with h | h | h
    · exact absurd h h0
    · exact pt_foreign s t f h0 (Or.inl h)
    · exact pt_foreign s t f h0 (Or.inr h)

/-- A small concrete runtime state: 16-word heap at addresses 100..115, empty
stack, all memory zero. -/
def exState : Runtime :=
  { heap_size := 16, from_space := 100, to_space := 108, bump_ptr := 100,
    base_frame_ptr := 500, gc_log := true, mem := fun _ => 0, log := [] }

theorem forward_null_or_foreign_noop_witness :
    (exState.mem 50 = 0 ∨ exState.mem 50 < exState.from_space ∨
     exState.from_space + exState.heap_size / 2 ≤ exState.mem 50) ∧
    process_transitive exState 50 108 = (exState, 108) :=
  ⟨Or.inl rfl, forward_null_or_foreign_noop exState 50 108 (Or.inl rfl)⟩

/-- **C1 counterexample.** On a fresh 16-word heap (`from_base = bump = 100`),
allocating 1 word returns payload pointer 100 — the old bump cursor itself —
and advances the bump cursor to 101.  The claim says the returned pointer is
the old bump cursor plus one (101) and the bump cursor advances by `1 + n`
(to 102); both parts are false of `_cflat_alloc`. -/
theorem alloc_returns_old_bump_cex :
    ((_cflat_alloc 0 0 exState 490 1).result = some 100 ∧
     (_cflat_alloc 0 0 exState 490 1).state.bump_ptr = 101) ∧
    ¬ ((_cflat_alloc 0 0 exState 490 1).result = some 101 ∧
       (_cflat_alloc 0 0 exState 490 1).state.bump_ptr = 102) := by
  decide

/-- **C1 (amended).** A first-attempt allocation of `n` words that fits in the
active half reserves exactly the `n` requested words: `_cflat_alloc` returns
the old bump cursor itself (any header slot must already be included in the
caller's request; the collector later reads headers at `payload − 1`),
advances the bump cursor by exactly `n`, triggers no collection, zeroes
exactly the `n` words starting at the returned pointer, and leaves every
other memory word unchanged. -/
theorem alloc_success_bumps_by_request (s : Runtime) (top n f1 f2 : Nat)
    (h : s.bump_ptr + n ≤ s.from_space + s.heap_size / 2) :
    (_cflat_alloc f1 f2 s top n).result = some s.bump_ptr ∧
    (_cflat_alloc f1 f2 s top n).state.bump_ptr = s.bump_ptr + n ∧
    (_cflat_alloc f1 f2 s top n).gcRuns = 0 ∧
    (∀ x, s.bump_ptr ≤ x → x < s.bump_ptr + n →
      (_cflat_alloc f1 f2 s top n).state.mem x = 0) ∧
    (∀ x, ¬ (s.bump_ptr ≤ x ∧ x < s.bump_ptr + n) →
      (_cflat_alloc f1 f2 s top n).state.mem x = s.mem x) := by
  unfold _cflat_alloc
  rw [if_pos h]
  refine ⟨?_, ?_, rfl, ?_, ?_⟩
  · simp [Runtime.emit_bump_ptr]
  · simp [Runtime.emit_bump_ptr]
  · intro x hx1 hx2
    simp only [Runtime.emit_bump_ptr, _cflat_zero_words]
    rw [if_pos ⟨hx1, hx2⟩]
  · intro x hx
    simp only [Runtime.emit_bump_ptr, Runtime.emit_mem, _cflat_zero_words]
    rw [if_neg hx]

theorem alloc_success_bumps_by_request_witness :
    exState.bump_ptr + 1 ≤ exState.from_space + exState.heap_size / 2 ∧
    (_cflat_alloc 0 0 exState 490 1).result = some exState.bump_ptr :=
  ⟨by decide,
   (alloc_success_bumps_by_request exState 490 1 0 0 (by decide)).1⟩

/-- **C10.** A zero-word request always succeeds on the first attempt (under
the allocator's running invariant that the bump cursor lies inside the active
half): no collection is triggered, the current bump cursor is returned, the
bump cursor and every memory word are unchanged — so a second zero-word
request returns the same address. -/
theorem alloc_zero_words_noop (s : Runtime) (top f1 f2 : Nat)
    (h : s.bump_ptr ≤ s.from_space + s.heap_size / 2) :
    (_cflat_alloc f1 f2 s top 0).result = some s.bump_ptr ∧
    (_cflat_alloc f1 f2 s top 0).gcRuns = 0 ∧
    (_cflat_alloc f1 f2 s top 0).state.bump_ptr = s.bump_ptr ∧
    (∀ x, (_cflat_alloc f1 f2 s top 0).state.mem x = s.mem x) ∧
    (_cflat_alloc f1 f2 ((_cflat_alloc f1 f2 s top 0).state) top 0).result =
      some s.bump_ptr := by
  have h0 : s.bump_ptr + 0 ≤ s.from_space + s.heap_size / 2 := by omega
  obtain ⟨r1, r2, r3, _, r5⟩ := alloc_success_bumps_by_request s top 0 f1 f2 h0
  have hmem : ∀ x, (_cflat_alloc f1 f2 s top 0).state.mem x = s.mem x := by
    intro x
    exact r5 x (by omega)
  refine ⟨r1, r3, by omega, hmem, ?_⟩
  set s' := (_cflat_alloc f1 f2 s top 0).state with hs'
  have hglob : sameGlobals s s' := by
    rw [hs']
    unfold _cflat_alloc
    rw [if_pos h0]
    exact sameGlobals_trans (sameGlobals_emit s _) (sameGlobals_setMem _ _)
  obtain ⟨g1, g2, g3, g4, g5, g6⟩ := hglob
  have h0' : s'.bump_ptr + 0 ≤ s'.from_space + s'.heap_size / 2 := by omega
  have := (alloc_success_bumps_by_request s' top 0 f1 f2 h0').1
  rw [this, r2, Nat.add_zero]

theorem alloc_zero_words_noop_witness :
    exState.bump_ptr ≤ exState.from_space + exState.heap_size / 2 ∧
    (_cflat_alloc 0 0 exState 490 0).result = some exState.bump_ptr :=
  ⟨by decide, (alloc_zero_words_noop exState 490 0 0 (by decide)).1⟩

/-- **C6.** `_cflat_alloc` runs the collector at most once per request: no
collection when the first attempt fits, exactly one collection (followed by
exactly one retry) when it does not, and when the retry also fails it panics
via `_cflat_panic` with message `"out of memory"`, exiting with status 0
(never nonzero). -/
theorem alloc_collects_at_most_once (s : Runtime) (top n f1 f2 : Nat) :
    (_cflat_alloc f1 f2 s top n).gcRuns ≤ 1 ∧
    (s.bump_ptr + n ≤ s.from_space + s.heap_size / 2 →
      (_cflat_alloc f1 f2 s top n).gcRuns = 0) ∧
    (¬ s.bump_ptr + n ≤ s.from_space + s.heap_size / 2 →
      (_cflat_alloc f1 f2 s top n).gcRuns = 1) ∧
    ((_cflat_alloc f1 f2 s top n).result = none →
      (_cflat_alloc f1 f2 s top n).panic =
        some { message := "out of memory", exitCode := 0 }) ∧
    ((_cflat_alloc f1 f2 s top n).panic = none →
      ∃ p, (_cflat_alloc f1 f2 s top n).result = some p) := by
  unfold _cflat_alloc
  by_cases h1 : s.bump_ptr + n ≤ s.from_space + s.heap_size / 2
  · rw [if_pos h1]
    exact ⟨Nat.zero_le 1, fun _ => rfl, fun hc => absurd h1 hc,
           fun hc => by simp at hc, fun _ => ⟨_, rfl⟩⟩
  · rw [if_neg h1]
    by_cases h2 : (gc_collect f1 f2 (s.emit [LogEvent.allocFirst n false]) top).bump_ptr + n ≤
        (gc_collect f1 f2 (s.emit [LogEvent.allocFirst n false]) top).from_space +
          (gc_collect f1 f2 (s.emit [LogEvent.allocFirst n false]) top).heap_size / 2
    · rw [if_pos h2]
      exact ⟨Nat.le_refl 1, fun hc => absurd hc h1, fun _ => rfl,
             fun hc => by simp at hc, fun _ => ⟨_, rfl⟩⟩
    · rw [if_neg h2]
      refine ⟨Nat.le_refl 1, fun hc => absurd hc h1, fun _ => rfl, fun _ => rfl,
             fun hc => ?_⟩
      simp [_cflat_panic] at hc

/-- A runtime state with a full active half (8-word heap, bump at the end of
from-space) and no stack frames between the allocating function and the walk
terminator, so a collection frees nothing. -/
def oomState : Runtime :=
  { heap_size := 8, from_space := 100, to_space := 104, bump_ptr := 104,
    base_frame_ptr := 480, gc_log := false, mem := fun _ => 0, log := [] }

theorem alloc_collects_at_most_once_witness :
    (¬ oomState.bump_ptr + 5 ≤ oomState.from_space + oomState.heap_size / 2) ∧
    (_cflat_alloc 1 1 oomState 490 5).gcRuns = 1 ∧
    (_cflat_alloc 1 1 oomState 490 5).panic =
      some { message := "out of memory", exitCode := 0 } := by
  have h := alloc_collects_at_most_once oomState 490 5 1 1
  exact ⟨by decide, h.2.2.1 (by decide), h.2.2.2.1 (by decide)⟩

/-- **C7 (code bug).** `_cflat_init_gc` panics (message printed, exit status
0) when `CFLAT_HEAP_WORDS` is absent, malformed, zero, or odd — but NOT for
every out-of-range numeric string: a string of digits whose value exceeds
`INT_MAX` makes `stoi` throw `std::out_of_range`, which nothing catches, so
the process terminates abnormally instead of exiting with status 0. -/
theorem init_out_of_range_digits_escapes_panic :
    _cflat_init_gc (some "9999999999") none = InitResult.uncaughtException ∧
    (∀ info : PanicInfo,
      _cflat_init_gc (some "9999999999") none ≠ InitResult.panicExit info) ∧
    _cflat_init_gc none none =
      InitResult.panicExit { message := "The CFLAT_HEAP_WORDS environment variable must be set to the desired size of the heap (in words).", exitCode := 0 } ∧
    _cflat_init_gc (some "12a") none =
      InitResult.panicExit { message := "CFLAT_HEAP_WORDS must contain a positive even number with no trailing spaces.", exitCode := 0 } ∧
    _cflat_init_gc (some "0") none =
      InitResult.panicExit { message := "CFLAT_HEAP_WORDS must contain a positive even number with no trailing spaces.", exitCode := 0 } ∧
    _cflat_init_gc (some "7") none =
      InitResult.panicExit { message := "CFLAT_HEAP_WORDS must contain a positive even number with no trailing spaces.", exitCode := 0 } := by
  refine ⟨by decide, ?_, by decide, by decide, by decide, by decide⟩
  intro info h
  have e : _cflat_init_gc (some "9999999999") none =
      InitResult.uncaughtException := by decide
  rw [e] at h
  exact InitResult.noConfusion h

/-- A state whose to-space holds one scanned object at 108 with a tag-4
header `(1 << 5 | 0) << 3 | 4 = 260` (size 1, k = 0) whose single field (at
109) points at the from-space object with payload 101; the free cursor is
past it at 110. -/
def tag4State : Runtime :=
  { heap_size := 16, from_space := 100, to_space := 108, bump_ptr := 104,
    base_frame_ptr := 500, gc_log := false,
    mem := fun x =>
      if x = 108 then 260 else if x = 109 then 101 else
      if x = 100 then 10 else if x = 101 then 42 else 0,
    log := [] }

/-- **C2 counterexample.** Scanning a to-space object whose tag-4 header has
`k = 0` forwards nothing: the field at payload offset 0 (address 109), which
points at a live from-space object, is left unchanged (still 101, a
from-space address, not a to-space one), and the free cursor does not move
(nothing is copied).  The claim says that even when `k = 0` the field at
offset 0 is forwarded. -/
theorem scan_tag4_k0_skips_field_cex :
    (tag4State.mem 108 % 8 = 4 ∧ (tag4State.mem 108 >>> 3) % 32 = 0) ∧
    (scan_object tag4State 108 110).1.mem 109 = 101 ∧
    (scan_object tag4State 108 110).2.2 = 110 ∧
    ¬ (tag4State.to_space ≤ (scan_object tag4State 108 110).1.mem 109 ∧
       (scan_object tag4State 108 110).1.mem 109 <
         tag4State.to_space + tag4State.heap_size / 2) := by
  decide

/-- **C2 (amended).** During the scan phase, for a to-space object whose
header has tag 4 and `k = (h >> 3) & 0x1F`: when `k = 0` the collector
forwards no field at all (the object is treated as having no pointer fields);
when `k > 0` it forwards exactly the fields at payload offsets
`0 .. min(k+1, W) - 1` (the `k+1` leading fields, capped at the payload word
count `W`), in increasing offset order. -/
theorem scan_tag4_forwards_leading_fields (s : Runtime) (scan free : Nat)
    (htag : s.mem scan % 8 = 4) :
    (((s.mem scan >>> 3) % 32 = 0) →
       scan_object s scan free =
         ((s.emit [LogEvent.scanHeader (s.mem scan)]).emit
            [LogEvent.scanAdvance (1 + get_payload_words (s.mem scan))],
          scan + (1 + get_payload_words (s.mem scan)), free)) ∧
    (0 < (s.mem scan >>> 3) % 32 →
       scan_object s scan free =
         (let r := processFields (s.emit [LogEvent.scanHeader (s.mem scan)])
                     free (scan + 1)
                     (List.range (min ((s.mem scan >>> 3) % 32 + 1)
                                      (get_payload_words (s.mem scan))))
          (r.1.emit [LogEvent.scanAdvance (1 + get_payload_words (s.mem scan))],
           scan + (1 + get_payload_words (s.mem scan)), r.2))) := by
  constructor
  · intro hk
    simp only [scan_object]
    rw [htag, hk]
    norm_num
  · intro hk
    simp only [scan_object]
    rw [htag]
    have h6 : ¬ ((4 : Nat) = 6) := by norm_num
    rw [if_neg h6, if_pos rfl, if_pos hk]

/-- Like `tag4State` but with `k = 1`: header `(2 << 5 | 1) << 3 | 4 = 524`
(size 2, two leading pointer fields), both fields null. -/
def tag4wState : Runtime :=
  { heap_size := 16, from_space := 100, to_space := 108, bump_ptr := 104,
    base_frame_ptr := 500, gc_log := false,
    mem := fun x => if x = 108 then 524 else 0,
    log := [] }

theorem scan_tag4_forwards_leading_fields_witness :
    tag4wState.mem 108 % 8 = 4 ∧ 0 < (tag4wState.mem 108 >>> 3) % 32 ∧
    (scan_object tag4wState 108 112).2.1 = 111 := by
  refine ⟨by decide, by decide, ?_⟩
  have h := (scan_tag4_forwards_leading_fields tag4wState 108 112 (by decide)).2
    (by decide)
  rw [h]
  decide

theorem processFields_free_mono (offs : List Nat) (s : Runtime) (free fields : Nat) :
    free ≤ (processFields s free fields offs).2 := by
  induction offs generalizing s free with
  | nil => exact le_refl free
  | cons i rest ih =>
      exact le_trans (pt_free_mono s (fields + i) free) (ih _ _)

theorem scan_object_scan (s : Runtime) (scan free : Nat) :
    (scan_object s scan free).2.1 = scan + (1 + get_payload_words (s.mem scan)) :=
  rfl

theorem scan_object_free_mono (s : Runtime) (scan free : Nat) :
    free ≤ (scan_object s scan free).2.2 := by
  simp only [scan_object]
  split_ifs <;> first
    | exact processFields_free_mono _ _ _ _
    | exact le_refl free

theorem scanStep_active (st : Runtime × Nat × Nat) (h : st.2.1 < st.2.2) :
    scanStep st = scan_object st.1 st.2.1 st.2.2 := by
  unfold scanStep
  rw [if_pos h]

theorem scanStep_done (st : Runtime × Nat × Nat) (h : ¬ st.2.1 < st.2.2) :
    scanStep st = st := by
  unfold scanStep
  rw [if_neg h]

theorem scanRun_succ_eq (k : Nat) (st : Runtime × Nat × Nat) :
    scanRun (k + 1) st = scanStep (scanRun k st) := by
  induction k generalizing st with
  | zero => rfl
  | succ k ih =>
      show scanRun (k + 1) (scanStep st) = scanStep (scanRun (k + 1) st)
      rw [ih (scanStep st)]
      rfl

theorem scanRun_fixed (k : Nat) (st : Runtime × Nat × Nat)
    (h : ¬ st.2.1 < st.2.2) : scanRun k st = st := by
  induction k with
  | zero => rfl
  | succ k ih =>
      rw [scanRun_succ_eq, ih, scanStep_done st h]

/-- **C9.** The scan loop of a collection terminates: under the well-formedness
precondition that, throughout the loop, the free cursor stays bounded by
`to_base + H/2` and each object header at the scan cursor describes data lying
below the free cursor, the scan cursor is monotonically non-decreasing, each
active iteration advances it by exactly `1 + payload` (at least one word), it
stays bounded above by the free cursor, and after at most `to_base + H/2`
iterations the scan cursor has met the free cursor. -/
theorem scan_loop_terminates (st : Runtime × Nat × Nat)
    (h0 : st.2.1 ≤ st.2.2)
    (hwf : ∀ k, (scanRun k st).2.2 ≤ st.1.to_space + st.1.heap_size / 2 ∧
      ((scanRun k st).2.1 < (scanRun k st).2.2 →
        (scanRun k st).2.1 +
            (1 + get_payload_words ((scanRun k st).1.mem (scanRun k st).2.1)) ≤
          (scanRun k st).2.2)) :
    (∀ k, (scanRun k st).2.1 ≤ (scanRun (k + 1) st).2.1) ∧
    (∀ k, (scanRun k st).2.1 < (scanRun k st).2.2 →
      (scanRun (k + 1) st).2.1 =
        (scanRun k st).2.1 +
          (1 + get_payload_words ((scanRun k st).1.mem (scanRun k st).2.1))) ∧
    (∀ k, (scanRun k st).2.1 ≤ (scanRun k st).2.2) ∧
    (scanRun (st.1.to_space + st.1.heap_size / 2) st).2.1 =
      (scanRun (st.1.to_space + st.1.heap_size / 2) st).2.2 := by
  have hstep : ∀ k, (scanRun k st).2.1 < (scanRun k st).2.2 →
      (scanRun (k + 1) st).2.1 =
        (scanRun k st).2.1 +
          (1 + get_payload_words ((scanRun k st).1.mem (scanRun k st).2.1)) := by
    intro k hk
    rw [scanRun_succ_eq, scanStep_active _ hk, scan_object_scan]
  have hmono : ∀ k, (scanRun k st).2.1 ≤ (scanRun (k + 1) st).2.1 := by
    intro k
    by_cases hk : (scanRun k st).2.1 < (scanRun k st).2.2
    · rw [hstep k hk]
      omega
    · rw [scanRun_succ_eq, scanStep_done _ hk]
  have hbnd : ∀ k, (scanRun k st).2.1 ≤ (scanRun k st).2.2 := by
    intro k
    induction k with
    | zero => exact h0
    | succ k ih =>
        by_cases hk : (scanRun k st).2.1 < (scanRun k st).2.2
        · have h1 := (hwf k).2 hk
          have h2 : (scanRun k st).2.2 ≤ (scanRun (k + 1) st).2.2 := by
            rw [scanRun_succ_eq, scanStep_active _ hk]
            exact scan_object_free_mono _ _ _
          rw [hstep k hk]
          omega
        · rw [scanRun_succ_eq, scanStep_done _ hk]
          exact ih
  refine ⟨hmono, hstep, hbnd, ?_⟩
  have hprog : ∀ k, (scanRun k st).2.1 = (scanRun k st).2.2 ∨
      st.2.1 + k ≤ (scanRun k st).2.1 := by
    intro k
    induction k with
    | zero =>
        have h00 : scanRun 0 st = st := rfl
        rw [h00]
        exact Or.inr (by omega)
    | succ k ih =>
        by_cases hk : (scanRun k st).2.1 < (scanRun k st).2.2
        · refine Or.inr ?_
          rcases ih with ih | ih
          · omega
          · have := hstep k hk
            omega
        · rw [scanRun_succ_eq, scanStep_done _ hk]
          exact Or.inl (le_antisymm (hbnd k) (le_of_not_lt hk))
  rcases hprog (st.1.to_space + st.1.heap_size / 2) with h | h
  · exact h
  · have h1 := hbnd (st.1.to_space + st.1.heap_size / 2)
    have h2 := (hwf (st.1.to_space + st.1.heap_size / 2)).1
    omega

theorem scan_loop_terminates_witness :
    ((exState, 108, 108) : Runtime × Nat × Nat).2.1 ≤
      ((exState, 108, 108) : Runtime × Nat × Nat).2.2 ∧
    (scanRun (exState.to_space + exState.heap_size / 2)
      ((exState, 108, 108) : Runtime × Nat × Nat)).2.1 =
    (scanRun (exState.to_space + exState.heap_size / 2)
      ((exState, 108, 108) : Runtime × Nat × Nat)).2.2 := by
  have hfix : ∀ k, scanRun k ((exState, 108, 108) : Runtime × Nat × Nat) =
      (exState, 108, 108) := fun k => scanRun_fixed k _ (by decide)
  refine ⟨le_refl _,
    (scan_loop_terminates (exState, 108, 108) (le_refl _) ?_).2.2.2⟩
  intro k
  rw [hfix k]
  exact ⟨by decide, fun h => absurd h (by decide)⟩

theorem copiedWords_append (l1 l2 : List LogEvent) :
    copiedWords (l1 ++ l2) = copiedWords l1 + copiedWords l2 := by
  simp [copiedWords]

theorem processRootSlots_globals (offs : List Nat) (s : Runtime)
    (free frame : Nat) :
    sameGlobals s (processRootSlots s free frame offs).1 := by
  induction offs generalizing s free with
  | nil => exact sameGlobals_refl s
  | cons i rest ih =>
      exact sameGlobals_trans
        (sameGlobals_trans (sameGlobals_emit s _) (pt_globals _ _ _)) (ih _ _)

theorem processFields_globals (offs : List Nat) (s : Runtime)
    (free fields : Nat) :
    sameGlobals s (processFields s free fields offs).1 := by
  induction offs generalizing s free with
  | nil => exact sameGlobals_refl s
  | cons i rest ih =>
      exact sameGlobals_trans (pt_globals _ _ _) (ih _ _)

theorem walkFrames_globals (fuel : Nat) (s : Runtime)
    (base frame idx free : Nat) :
    sameGlobals s (walkFrames fuel s base frame idx free).1 := by
  induction fuel generalizing s frame idx free with
  | zero => exact sameGlobals_refl s
  | succ fuel ih =>
      simp only [walkFrames]
      split
      · exact sameGlobals_trans
          (sameGlobals_trans (sameGlobals_emit s _) (processRootSlots_globals _ _ _ _))
          (ih _ _ _ _)
      · exact sameGlobals_refl s

theorem scan_object_globals (s : Runtime) (scan free : Nat) :
    sameGlobals s (scan_object s scan free).1 := by
  simp only [scan_object]
  split_ifs <;>
    exact sameGlobals_trans
      (sameGlobals_trans (sameGlobals_emit s _)
        (by first
          | exact processFields_globals _ _ _ _
          | exact sameGlobals_refl _))
      (sameGlobals_emit _ _)

theorem scanStep_globals (st : Runtime × Nat × Nat) :
    sameGlobals st.1 (scanStep st).1 := by
  unfold scanStep
  split
  · exact scan_object_globals _ _ _
  · exact sameGlobals_refl _

theorem scanRun_globals (k : Nat) (st : Runtime × Nat × Nat) :
    sameGlobals st.1 (scanRun k st).1 := by
  induction k generalizing st with
  | zero => exact sameGlobals_refl _
  | succ k ih =>
      exact sameGlobals_trans (scanStep_globals st) (ih (scanStep st))

theorem gc_phases_globals (f1 f2 : Nat) (s : Runtime) (top : Nat) :
    sameGlobals s (gc_phases f1 f2 s top).1 := by
  unfold gc_phases
  exact sameGlobals_trans
    (sameGlobals_trans (walkFrames_globals f1 s s.base_frame_ptr top 0 s.to_space)
      (sameGlobals_emit _ _))
    (scanRun_globals f2 _)

/-- Free-cursor/log accounting for one `process_transitive` call: with logging
on, the free cursor advances by exactly the total size recorded in the
`copying object` lines the call appends. -/
theorem pt_copied (s : Runtime) (t f : Nat) (hgc : s.gc_log = true) :
    copiedWords (process_transitive s t f).1.log + f =
      copiedWords s.log + (process_transitive s t f).2 := by
  by_cases h0 : s.mem t = 0
  · rw [pt_null s t f h0]
  · by_cases h1 : s.mem t < s.from_space ∨ s.from_space + s.heap_size / 2 ≤ s.mem t
    · rw [pt_foreign s t f h0 h1]
    · by_cases h2 : s.to_space ≤ s.mem (s.mem t - 1) ∧
          s.mem (s.mem t - 1) < s.to_space + s.heap_size / 2
      · rw [pt_forwarded s t f h0 h1 h2]
        simp [Runtime.emit_log, hgc, copiedWords_append, copiedWords]
      · rw [pt_fresh s t f h0 h1 h2]
        simp only [Runtime.emit_log, hgc, if_pos]
        rw [copiedWords_append]
        simp [copiedWords]
        omega

theorem processRootSlots_copied (offs : List Nat) (s : Runtime)
    (free frame : Nat) (hgc : s.gc_log = true) :
    copiedWords (processRootSlots s free frame offs).1.log + free =
      copiedWords s.log + (processRootSlots s free frame offs).2 := by
  induction offs generalizing s free with
  | nil => rfl
  | cons i rest ih =>
      simp only [processRootSlots]
      have hgc1 : (s.emit [LogEvent.ptrOffset i]).gc_log = true := by
        rw [Runtime.emit_gc_log]; exact hgc
      have hgc2 : (process_transitive (s.emit [LogEvent.ptrOffset i])
          (frame - 2 - i) free).1.gc_log = true := by
        rw [(pt_globals _ _ _).2.2.2.2.2]; exact hgc1
      have h1 := pt_copied (s.emit [LogEvent.ptrOffset i]) (frame - 2 - i) free hgc1
      have h2 := ih (process_transitive (s.emit [LogEvent.ptrOffset i])
          (frame - 2 - i) free).1
        (process_transitive (s.emit [LogEvent.ptrOffset i]) (frame - 2 - i) free).2
        hgc2
      have h3 : copiedWords (s.emit [LogEvent.ptrOffset i]).log = copiedWords s.log := by
        rw [Runtime.emit_log, hgc]
        simp [copiedWords_append, copiedWords]
      omega

theorem processFields_copied (offs : List Nat) (s : Runtime)
    (free fields : Nat) (hgc : s.gc_log = true) :
    copiedWords (processFields s free fields offs).1.log + free =
      copiedWords s.log + (processFields s free fields offs).2 := by
  induction offs generalizing s free with
  | nil => rfl
  | cons i rest ih =>
      simp only [processFields]
      have hgc2 : (process_transitive s (fields + i) free).1.gc_log = true := by
        rw [(pt_globals _ _ _).2.2.2.2.2]; exact hgc
      have h1 := pt_copied s (fields + i) free hgc
      have h2 := ih (process_transitive s (fields + i) free).1
        (process_transitive s (fields + i) free).2 hgc2
      omega

theorem walkFrames_copied (fuel : Nat) (s : Runtime)
    (base frame idx free : Nat) (hgc : s.gc_log = true) :
    copiedWords (walkFrames fuel s base frame idx free).1.log + free =
      copiedWords s.log + (walkFrames fuel s base frame idx free).2 := by
  induction fuel generalizing s frame idx free with
  | zero => rfl
  | succ fuel ih =>
      simp only [walkFrames]
      split
      · have hgc1 : (s.emit [LogEvent.frameLine idx (s.mem (frame - 1))]).gc_log
            = true := by
          rw [Runtime.emit_gc_log]; exact hgc
        set s1 := s.emit [LogEvent.frameLine idx (s.mem (frame - 1))] with hs1
        set r := processRootSlots s1 free frame (List.range (s.mem (frame - 1)))
          with hr
        have hgc2 : r.1.gc_log = true := by
          rw [hr, (processRootSlots_globals _ _ _ _).2.2.2.2.2]
          exact hgc1
        have h1 : copiedWords r.1.log + free = copiedWords s1.log + r.2 :=
          processRootSlots_copied (List.range (s.mem (frame - 1))) s1
            free frame hgc1
        have h2 : copiedWords
              (walkFrames fuel r.1 base (r.1.mem frame) (idx + 1) r.2).1.log + r.2 =
            copiedWords r.1.log +
              (walkFrames fuel r.1 base (r.1.mem frame) (idx + 1) r.2).2 :=
          ih r.1 (r.1.mem frame) (idx + 1) r.2 hgc2
        have h3 : copiedWords s1.log = copiedWords s.log := by
          rw [hs1, Runtime.emit_log, hgc]
          simp [copiedWords_append, copiedWords]
        omega
      · rfl

theorem scan_branch_copied (s s0 : Runtime) (B : Runtime × Nat)
    (free sz : Nat) (hgcB : B.1.gc_log = true)
    (hlog : copiedWords s0.log = copiedWords s.log)
    (h1 : copiedWords B.1.log + free = copiedWords s0.log + B.2) :
    copiedWords (B.1.emit [LogEvent.scanAdvance sz]).log + free =
      copiedWords s.log + B.2 := by
  have e : (B.1.emit [LogEvent.scanAdvance sz]).log =
      B.1.log ++ [LogEvent.scanAdvance sz] := by
    rw [Runtime.emit_log, hgcB]
    simp
  rw [e, copiedWords_append]
  have h2 : copiedWords [LogEvent.scanAdvance sz] = 0 := by
    simp [copiedWords]
  omega

theorem scan_object_copied (s : Runtime) (scan free : Nat)
    (hgc : s.gc_log = true) :
    copiedWords (scan_object s scan free).1.log + free =
      copiedWords s.log + (scan_object s scan free).2.2 := by
  have hgc0 : (s.emit [LogEvent.scanHeader (s.mem scan)]).gc_log = true := by
    rw [Runtime.emit_gc_log]; exact hgc
  have h0 : copiedWords (s.emit [LogEvent.scanHeader (s.mem scan)]).log =
      copiedWords s.log := by
    rw [Runtime.emit_log, hgc]
    simp [copiedWords_append, copiedWords]
  simp only [scan_object]
  split_ifs <;>
    first
      | exact scan_branch_copied s _ _ free _
          (by rw [(processFields_globals _ _ _ _).2.2.2.2.2]; exact hgc0)
          h0 (processFields_copied _ _ free _ hgc0)
      | exact scan_branch_copied s _ _ free _ hgc0 h0 rfl

theorem scanStep_copied (st : Runtime × Nat × Nat) (hgc : st.1.gc_log = true) :
    copiedWords (scanStep st).1.log + st.2.2 =
      copiedWords st.1.log + (scanStep st).2.2 := by
  unfold scanStep
  split
  · exact scan_object_copied st.1 st.2.1 st.2.2 hgc
  · rfl

theorem scanRun_copied (k : Nat) (st : Runtime × Nat × Nat)
    (hgc : st.1.gc_log = true) :
    copiedWords (scanRun k st).1.log + st.2.2 =
      copiedWords st.1.log + (scanRun k st).2.2 := by
  induction k generalizing st with
  | zero => rfl
  | succ k ih =>
      have h1 := scanStep_copied st hgc
      have hgc2 : (scanStep st).1.gc_log = true := by
        rw [(scanStep_globals st).2.2.2.2.2]; exact hgc
      have h2 := ih (scanStep st) hgc2
      show copiedWords (scanRun k (scanStep st)).1.log + st.2.2 =
        copiedWords st.1.log + (scanRun k (scanStep st)).2.2
      omega

theorem gc_phases_eq (f1 f2 : Nat) (s : Runtime) (top : Nat) :
    gc_phases f1 f2 s top =
      scanRun f2 ((walkFrames f1 s s.base_frame_ptr top 0 s.to_space).1.emit
        [LogEvent.scanStart], s.to_space,
        (walkFrames f1 s s.base_frame_ptr top 0 s.to_space).2) := rfl

theorem gc_phases_copied (f1 f2 : Nat) (s : Runtime) (top : Nat)
    (hgc : s.gc_log = true) :
    copiedWords (gc_phases f1 f2 s top).1.log + s.to_space =
      copiedWords s.log + (gc_phases f1 f2 s top).2.2 := by
  rw [gc_phases_eq]
  set r1 := walkFrames f1 s s.base_frame_ptr top 0 s.to_space with hr1
  have hgc1 : r1.1.gc_log = true := by
    rw [hr1, (walkFrames_globals _ _ _ _ _ _).2.2.2.2.2]; exact hgc
  have hgc1e : (r1.1.emit [LogEvent.scanStart]).gc_log = true := by
    rw [Runtime.emit_gc_log]; exact hgc1
  have h1 : copiedWords r1.1.log + s.to_space = copiedWords s.log + r1.2 := by
    rw [hr1]
    exact walkFrames_copied f1 s s.base_frame_ptr top 0 s.to_space hgc
  have h2 : copiedWords
        (scanRun f2 (r1.1.emit [LogEvent.scanStart], s.to_space, r1.2)).1.log +
        r1.2 =
      copiedWords (r1.1.emit [LogEvent.scanStart]).log +
        (scanRun f2 (r1.1.emit [LogEvent.scanStart], s.to_space, r1.2)).2.2 :=
    scanRun_copied f2 (r1.1.emit [LogEvent.scanStart], s.to_space, r1.2) hgc1e
  have h3 : copiedWords (r1.1.emit [LogEvent.scanStart]).log =
      copiedWords r1.1.log := by
    rw [Runtime.emit_log, hgc1]
    simp [copiedWords_append, copiedWords]
  omega

/-- A full collection scenario: the stack has one frame (base 490, terminator
500) with one root (slot 488) pointing at the from-space struct S (payload
101, header 260 at 100: tag 4, size 1, k = 0) whose single field points at
the from-space array X (payload 103, header 10 at 102: tag 2, length 1). -/
def c4State : Runtime :=
  { heap_size := 16, from_space := 100, to_space := 108, bump_ptr := 104,
    base_frame_ptr := 500, gc_log := true,
    mem := fun x =>
      if x = 490 then 500 else if x = 489 then 1 else if x = 488 then 101 else
      if x = 100 then 260 else if x = 101 then 103 else
      if x = 102 then 10 else if x = 103 then 42 else 0,
    log := [] }

/-- **C4 counterexample.** After collecting `c4State`, `bump − from_base = 2`:
only the 2-word struct S was copied.  But under the spec's own tracing rules
(`t = 4`: forward offsets `0 .. k`, here `k = 0`, so S's field at offset 0 is
a pointer), X is also reachable, and the reachable objects occupy
`2 + 2 = 4 ≠ 2` words.  Indeed X's old header (word 102) holds no forwarding
address afterwards, and the copied S's field (word 109) still holds X's stale
from-space payload address 103. -/
theorem collect_misses_spec_reachable_cex :
    ((c4State.mem 488 = 101 ∧ c4State.mem 100 % 8 = 4 ∧
      (c4State.mem 100 >>> 3) % 32 = 0 ∧ c4State.mem 101 = 103) ∧
     (gc_collect 2 2 c4State 490).bump_ptr -
       (gc_collect 2 2 c4State 490).from_space = 2 ∧
     (gc_collect 2 2 c4State 490).mem 102 = 10 ∧
     (gc_collect 2 2 c4State 490).mem 109 = 103) ∧
    2 ≠ (1 + get_payload_words (c4State.mem 100)) +
          (1 + get_payload_words (c4State.mem 102)) := by
  decide

/-- **C4 (amended).** At the end of every collection the collector swaps the
from- and to-space base pointers exactly once and sets the bump cursor to
`from_base + L` where `L = free − to_base` — so afterwards `bump − from_base`
equals the total number of words (headers included) occupied by the objects
the collection actually copied into to-space, i.e. those reachable under the
collector's own field-tracing rules (under which a tag-4 header with `k = 0`
has no pointer fields): with logging on, `L` equals the total decoded size of
the objects named by the `---- copying object` log lines. -/
theorem collect_swaps_once_and_sets_bump (f1 f2 : Nat) (s : Runtime)
    (top : Nat) :
    (gc_collect f1 f2 s top).from_space = s.to_space ∧
    (gc_collect f1 f2 s top).to_space = s.from_space ∧
    (gc_collect f1 f2 s top).bump_ptr =
      s.to_space + ((gc_phases f1 f2 s top).2.2 - s.to_space) ∧
    (s.gc_log = true → s.log = [] →
      copiedWords (gc_phases f1 f2 s top).1.log =
        (gc_phases f1 f2 s top).2.2 - s.to_space) := by
  obtain ⟨g1, g2, g3, g4, g5, g6⟩ := gc_phases_globals f1 f2 s top
  refine ⟨?_, ?_, ?_, ?_⟩
  · show ((gc_phases f1 f2 s top).1.emit
      [LogEvent.swapLine ((gc_phases f1 f2 s top).2.2 -
        (gc_phases f1 f2 s top).1.to_space)]).to_space = s.to_space
    rw [Runtime.emit_to_space]
    exact g3
  · show ((gc_phases f1 f2 s top).1.emit
      [LogEvent.swapLine ((gc_phases f1 f2 s top).2.2 -
        (gc_phases f1 f2 s top).1.to_space)]).from_space = s.from_space
    rw [Runtime.emit_from_space]
    exact g2
  · show ((gc_phases f1 f2 s top).1.emit
      [LogEvent.swapLine ((gc_phases f1 f2 s top).2.2 -
        (gc_phases f1 f2 s top).1.to_space)]).to_space +
      ((gc_phases f1 f2 s top).2.2 - (gc_phases f1 f2 s top).1.to_space) =
      s.to_space + ((gc_phases f1 f2 s top).2.2 - s.to_space)
    rw [Runtime.emit_to_space, g3]
  · intro hgc hlog
    have h := gc_phases_copied f1 f2 s top hgc
    rw [hlog] at h
    have h0 : copiedWords ([] : List LogEvent) = 0 := rfl
    omega

theorem collect_swaps_once_and_sets_bump_witness :
    c4State.gc_log = true ∧ c4State.log = [] ∧
    (gc_collect 2 2 c4State 490).from_space = c4State.to_space ∧
    (gc_collect 2 2 c4State 490).bump_ptr =
      c4State.to_space + ((gc_phases 2 2 c4State 490).2.2 - c4State.to_space) ∧
    copiedWords (gc_phases 2 2 c4State 490).1.log =
      (gc_phases 2 2 c4State 490).2.2 - c4State.to_space := by
  have h := collect_swaps_once_and_sets_bump 2 2 c4State 490
  exact ⟨rfl, rfl, h.1, h.2.2.1, h.2.2.2 rfl rfl⟩

/-- Footprint of `process_transitive` with the target-header address bounded
abstractly: any address that is not the slot, not a possible from-space header
word (predecessor of a from-space payload address), and not in the copy
destination range, is unchanged. -/
theorem pt_footprint_heap (s : Runtime) (t f x : Nat)
    (hx1 : x ≠ t)
    (hx2 : ¬ (s.from_space ≤ x + 1 ∧ x + 1 < s.from_space + s.heap_size / 2))
    (hx3 : ¬ (f ≤ x ∧ x < (process_transitive s t f).2)) :
    (process_transitive s t f).1.mem x = s.mem x := by
  by_cases h0 : s.mem t = 0
  · rw [pt_null s t f h0]
  · by_cases h1 : s.mem t < s.from_space ∨ s.from_space + s.heap_size / 2 ≤ s.mem t
    · rw [pt_foreign s t f h0 h1]
    · have hv : s.from_space ≤ s.mem t ∧
          s.mem t < s.from_space + s.heap_size / 2 := by
        push_neg at h1
        exact ⟨h1.1, h1.2⟩
      have hvpos : 0 < s.mem t := Nat.pos_of_ne_zero h0
      have hx2' : x ≠ s.mem t - 1 := by
        intro he
        exact hx2 ⟨by omega, by omega⟩
      exact pt_footprint s t f x hx1 hx2' hx3

theorem processRootSlots_free_mono (offs : List Nat) (s : Runtime)
    (free frame : Nat) :
    free ≤ (processRootSlots s free frame offs).2 := by
  induction offs generalizing s free with
  | nil => exact le_refl free
  | cons i rest ih =>
      simp only [processRootSlots]
      exact le_trans (pt_free_mono _ _ _) (ih _ _)

theorem processRootSlots_footprint (offs : List Nat) (s : Runtime)
    (free frame x : Nat)
    (hx1 : ∀ i ∈ offs, x ≠ frame - 2 - i)
    (hx2 : ¬ (s.from_space ≤ x + 1 ∧ x + 1 < s.from_space + s.heap_size / 2))
    (hx3 : ¬ (free ≤ x ∧ x < (processRootSlots s free frame offs).2)) :
    (processRootSlots s free frame offs).1.mem x = s.mem x := by
  induction offs generalizing s free with
  | nil => rfl
  | cons i rest ih =>
      simp only [processRootSlots] at hx3 ⊢
      have hglob := pt_globals (s.emit [LogEvent.ptrOffset i]) (frame - 2 - i) free
      have hstep : (process_transitive (s.emit [LogEvent.ptrOffset i])
          (frame - 2 - i) free).1.mem x = s.mem x := by
        rw [← Runtime.emit_mem s [LogEvent.ptrOffset i]]
        apply pt_footprint_heap
        · exact hx1 i (List.mem_cons_self i rest)
        · rw [Runtime.emit_from_space, Runtime.emit_heap_size]
          exact hx2
        · intro hc
          refine hx3 ⟨hc.1, lt_of_lt_of_le hc.2 ?_⟩
          exact processRootSlots_free_mono rest _ _ _
      have htail : (processRootSlots (process_transitive
            (s.emit [LogEvent.ptrOffset i]) (frame - 2 - i) free).1
          (process_transitive (s.emit [LogEvent.ptrOffset i])
            (frame - 2 - i) free).2 frame rest).1.mem x =
          (process_transitive (s.emit [LogEvent.ptrOffset i])
            (frame - 2 - i) free).1.mem x := by
        apply ih
        · intro j hj
          exact hx1 j (List.mem_cons_of_mem i hj)
        · rw [hglob.2.1, hglob.1, Runtime.emit_from_space, Runtime.emit_heap_size]
          exact hx2
        · intro hc
          exact hx3 ⟨le_trans (pt_free_mono _ _ _) hc.1, hc.2⟩
      rw [htail, hstep]

theorem walkFrames_free_mono (fuel : Nat) (s : Runtime)
    (base frame idx free : Nat) :
    free ≤ (walkFrames fuel s base frame idx free).2 := by
  induction fuel generalizing s frame idx free with
  | zero => exact le_refl free
  | succ fuel ih =>
      simp only [walkFrames]
      split
      · exact le_trans
          (processRootSlots_free_mono _ _ _ _)
          (ih _ _ _ _)
      · exact le_refl free

theorem frameChain_lt_base (fuel : Nat) (m : Mem) (base frame : Nat) :
    ∀ f ∈ frameChain fuel m base frame, f < base := by
  induction fuel generalizing frame with
  | zero => intro f hf; exact absurd hf (List.not_mem_nil f)
  | succ fuel ih =>
      intro f hf
      by_cases hb : frame < base
      · rw [frameChain, if_pos hb] at hf
        rcases List.mem_cons.mp hf with hf | hf
        · rw [hf]; exact hb
        · exact ih (m frame) f hf
      · rw [frameChain, if_neg hb] at hf
        exact absurd hf (List.not_mem_nil f)

theorem frameChain_congr (fuel : Nat) (m m' : Mem) (base frame : Nat)
    (h : ∀ g ∈ frameChain fuel m base frame, m' g = m g) :
    frameChain fuel m' base frame = frameChain fuel m base frame := by
  induction fuel generalizing frame with
  | zero => rfl
  | succ fuel ih =>
      by_cases hb : frame < base
      · rw [frameChain, if_pos hb, frameChain, if_pos hb]
        have hmem : frame ∈ frameChain (fuel + 1) m base frame := by
          rw [frameChain, if_pos hb]
          exact List.mem_cons_self frame _
        have hg : m' frame = m frame := h frame hmem
        rw [hg]
        congr 1
        apply ih
        intro g hgmem
        apply h g
        rw [frameChain, if_pos hb]
        exact List.mem_cons_of_mem frame hgmem
      · rw [frameChain, if_neg hb, frameChain, if_neg hb]

theorem map_pair_congr (l : List Nat) (m m' : Mem)
    (h : ∀ f ∈ l, m' (f - 1) = m (f - 1)) :
    l.map (fun f => (f, m' (f - 1))) = l.map (fun f => (f, m (f - 1))) := by
  induction l with
  | nil => rfl
  | cons a t ih =>
      simp only [List.map_cons]
      rw [h a (List.mem_cons_self a t),
          ih (fun f hf => h f (List.mem_cons_of_mem a hf))]

/-- The stack walk of `gc_collect` equals the reference walk over the frame
chain read off the initial memory, provided the compiler's stack-layout
contract holds: root slots of the visited frames never overlap a visited
frame's saved-link word (offset 0) or root-count word (offset −1), and the
heap (from-space and the words copied to during the walk) lies entirely below
those bookkeeping words. -/
theorem walkFrames_chain (fuel : Nat) (s : Runtime) (base frame idx free0 : Nat)
    (hsep : ∀ g ∈ frameChain fuel s.mem base frame,
      s.from_space + s.heap_size / 2 ≤ g - 1)
    (hfree : ∀ g ∈ frameChain fuel s.mem base frame,
      (walkFrames fuel s base frame idx free0).2 ≤ g - 1)
    (hslots : ∀ f ∈ frameChain fuel s.mem base frame,
      ∀ g ∈ frameChain fuel s.mem base frame,
        ∀ i, i < s.mem (f - 1) → f - 2 - i ≠ g ∧ f - 2 - i ≠ g - 1) :
    walkFrames fuel s base frame idx free0 =
      processFramesC s free0 idx ((frameChain fuel s.mem base frame).map
        (fun f => (f, s.mem (f - 1)))) := by
  induction fuel generalizing s frame idx free0 with
  | zero => rfl
  | succ fuel ih =>
      by_cases hb : frame < base
      · have hchain : frameChain (fuel + 1) s.mem base frame =
            frame :: frameChain fuel s.mem base (s.mem frame) := by
          rw [frameChain, if_pos hb]
        have hmemb : frame ∈ frameChain (fuel + 1) s.mem base frame := by
          rw [hchain]; exact List.mem_cons_self _ _
        have hmemt : ∀ g ∈ frameChain fuel s.mem base (s.mem frame),
            g ∈ frameChain (fuel + 1) s.mem base frame := by
          intro g hg
          rw [hchain]
          exact List.mem_cons_of_mem _ hg
        set count := s.mem (frame - 1) with hcount
        set s1 := s.emit [LogEvent.frameLine idx count] with hs1
        set R := processRootSlots s1 free0 frame (List.range count) with hR
        have hwalk_unfold : walkFrames (fuel + 1) s base frame idx free0 =
            walkFrames fuel R.1 base (R.1.mem frame) (idx + 1) R.2 := by
          rw [walkFrames, if_pos hb]
        have hglob : sameGlobals s R.1 := by
          rw [hR, hs1]
          exact sameGlobals_trans (sameGlobals_emit s _)
            (processRootSlots_globals _ _ _ _)
        have hfull_mono : R.2 ≤ (walkFrames (fuel + 1) s base frame idx free0).2 := by
          rw [hwalk_unfold]
          exact walkFrames_free_mono fuel R.1 base (R.1.mem frame) (idx + 1) R.2
        have key : ∀ y ∈ frameChain (fuel + 1) s.mem base frame,
            R.1.mem y = s.mem y ∧ R.1.mem (y - 1) = s.mem (y - 1) := by
          intro y hy
          have hsy := hsep y hy
          have hfy := hfree y hy
          have hs11 : ∀ i ∈ List.range count, y ≠ frame - 2 - i := by
            intro i hi
            have := (hslots frame hmemb y hy i (List.mem_range.mp hi)).1
            exact fun he => this he.symm
          have hs12 : ∀ i ∈ List.range count, y - 1 ≠ frame - 2 - i := by
            intro i hi
            have := (hslots frame hmemb y hy i (List.mem_range.mp hi)).2
            exact fun he => this he.symm
          constructor
          · have : R.1.mem y = s1.mem y := by
              rw [hR]
              apply processRootSlots_footprint _ _ _ _ _ hs11
              · rw [hs1, Runtime.emit_from_space, Runtime.emit_heap_size]
                intro hc
                omega
              · intro hc
                have h2 : (processRootSlots s1 free0 frame (List.range count)).2 ≤
                    y - 1 := by
                  rw [← hR]
                  exact le_trans hfull_mono hfy
                omega
            rw [this, hs1, Runtime.emit_mem]
          · have : R.1.mem (y - 1) = s1.mem (y - 1) := by
              rw [hR]
              apply processRootSlots_footprint _ _ _ _ _ hs12
              · rw [hs1, Runtime.emit_from_space, Runtime.emit_heap_size]
                intro hc
                omega
              · intro hc
                have h2 : (processRootSlots s1 free0 frame (List.range count)).2 ≤
                    y - 1 := by
                  rw [← hR]
                  exact le_trans hfull_mono hfy
                omega
            rw [this, hs1, Runtime.emit_mem]
        have hlink : R.1.mem frame = s.mem frame := (key frame hmemb).1
        have hchain' : frameChain fuel R.1.mem base (s.mem frame) =
            frameChain fuel s.mem base (s.mem frame) := by
          apply frameChain_congr
          intro g hg
          exact (key g (hmemt g hg)).1
        have hcounts : ∀ f ∈ frameChain fuel s.mem base (s.mem frame),
            R.1.mem (f - 1) = s.mem (f - 1) := by
          intro f hf
          exact (key f (hmemt f hf)).2
        have hsub : walkFrames fuel R.1 base (s.mem frame) (idx + 1) R.2 =
            processFramesC R.1 R.2 (idx + 1)
              ((frameChain fuel R.1.mem base (s.mem frame)).map
                (fun f => (f, R.1.mem (f - 1)))) := by
          apply ih
          · intro g hg
            rw [hchain'] at hg
            rw [hglob.2.1, hglob.1]
            exact hsep g (hmemt g hg)
          · intro g hg
            rw [hchain'] at hg
            have he : (walkFrames fuel R.1 base (s.mem frame) (idx + 1) R.2).2 =
                (walkFrames (fuel + 1) s base frame idx free0).2 := by
              rw [hwalk_unfold, hlink]
            rw [he]
            exact hfree g (hmemt g hg)
          · intro f hf g hg i hi
            rw [hchain'] at hf hg
            rw [hcounts f hf] at hi
            exact hslots f (hmemt f hf) g (hmemt g hg) i hi
        have hmap : (frameChain fuel R.1.mem base (s.mem frame)).map
              (fun f => (f, R.1.mem (f - 1))) =
            (frameChain fuel s.mem base (s.mem frame)).map
              (fun f => (f, s.mem (f - 1))) := by
          rw [hchain']
          exact map_pair_congr _ _ _ hcounts
        rw [hwalk_unfold, hlink, hsub, hmap, hchain]
        rw [List.map_cons]
        rw [processFramesC]
      · rw [walkFrames, if_neg hb, frameChain, if_neg hb]
        rfl

/-- **C5.** The root enumerator starts at `top_frame` (the frame base of the
function that called `_cflat_alloc`) and visits exactly the frames of the
linked chain `top, *top, **top, ...` in order from the top of the stack
downward (frames numbered from 0), following the saved-previous-frame word at
offset 0; it stops as soon as a frame base reaches or passes the recorded
terminator `base_frame_ptr`, and the terminator frame itself is never
visited.  For each visited frame it reads the root count `R` at `frame − 1`
(as recorded in the memory when the walk started) and forwards the slots
`frame − 2 − i` for `i ∈ [0, R)` in increasing order of `i`.  This holds
under the compiler's stack-layout contract: the root slots of visited frames
do not overlap any visited frame's link or count word, and the heap together
with the words copied during the walk lies below those words. -/
theorem root_walk_visits_chain_in_order (fuel : Nat) (s : Runtime)
    (top free0 : Nat)
    (hsep : ∀ g ∈ frameChain fuel s.mem s.base_frame_ptr top,
      s.from_space + s.heap_size / 2 ≤ g - 1)
    (hfree : ∀ g ∈ frameChain fuel s.mem s.base_frame_ptr top,
      (walkFrames fuel s s.base_frame_ptr top 0 free0).2 ≤ g - 1)
    (hslots : ∀ f ∈ frameChain fuel s.mem s.base_frame_ptr top,
      ∀ g ∈ frameChain fuel s.mem s.base_frame_ptr top,
        ∀ i, i < s.mem (f - 1) → f - 2 - i ≠ g ∧ f - 2 - i ≠ g - 1) :
    walkFrames fuel s s.base_frame_ptr top 0 free0 =
      processFramesC s free0 0
        ((frameChain fuel s.mem s.base_frame_ptr top).map
          (fun f => (f, s.mem (f - 1)))) ∧
    (∀ f ∈ frameChain fuel s.mem s.base_frame_ptr top, f < s.base_frame_ptr) ∧
    (0 < fuel → top < s.base_frame_ptr →
      (frameChain fuel s.mem s.base_frame_ptr top).head? = some top) ∧
    (¬ top < s.base_frame_ptr →
      frameChain fuel s.mem s.base_frame_ptr top = []) := by
  refine ⟨walkFrames_chain fuel s s.base_frame_ptr top 0 free0 hsep hfree hslots,
    frameChain_lt_base fuel s.mem s.base_frame_ptr top, ?_, ?_⟩
  · intro hf ht
    cases fuel with
    | zero => exact absurd hf (lt_irrefl 0)
    | succ n =>
        rw [frameChain, if_pos ht]
        rfl
  · intro ht
    cases fuel with
    | zero => rfl
    | succ n => rw [frameChain, if_neg ht]

/-- A one-frame stack for the root-walk witness: frame base 490 (terminator
500), root count 1 at 489, null root slot at 488. -/
def walkState : Runtime :=
  { heap_size := 16, from_space := 100, to_space := 108, bump_ptr := 100,
    base_frame_ptr := 500, gc_log := true,
    mem := fun x => if x = 490 then 500 else if x = 489 then 1 else 0,
    log := [] }

theorem root_walk_visits_chain_in_order_witness :
    walkFrames 3 walkState walkState.base_frame_ptr 490 0 108 =
      processFramesC walkState 108 0
        ((frameChain 3 walkState.mem walkState.base_frame_ptr 490).map
          (fun f => (f, walkState.mem (f - 1)))) ∧
    (frameChain 3 walkState.mem walkState.base_frame_ptr 490).head? =
      some 490 := by
  have h := root_walk_visits_chain_in_order 3 walkState 490 108
    (by decide) (by decide) (by decide)
  exact ⟨h.1, h.2.2.1 (by decide) (by decide)⟩

theorem processSlots_footprint (slots : List Nat) (s : Runtime) (free x : Nat)
    (hx1 : ∀ t ∈ slots, x ≠ t)
    (hx2 : ¬ (s.from_space ≤ x + 1 ∧ x + 1 < s.from_space + s.heap_size / 2))
    (hx3 : ¬ (free ≤ x ∧ x < (processSlots s free slots).2)) :
    (processSlots s free slots).1.mem x = s.mem x := by
  induction slots generalizing s free with
  | nil => rfl
  | cons t rest ih =>
      simp only [processSlots] at hx3 ⊢
      have hglob := pt_globals s t free
      have hstep : (process_transitive s t free).1.mem x = s.mem x := by
        apply pt_footprint_heap s t free x (hx1 t (List.mem_cons_self t rest)) hx2
        intro hc
        refine hx3 ⟨hc.1, lt_of_lt_of_le hc.2 ?_⟩
        exact processSlots_free_mono rest _ _
      have htail : (processSlots (process_transitive s t free).1
            (process_transitive s t free).2 rest).1.mem x =
          (process_transitive s t free).1.mem x := by
        apply ih
        · intro u hu
          exact hx1 u (List.mem_cons_of_mem t hu)
        · rw [hglob.2.1, hglob.1]
          exact hx2
        · intro hc
          exact hx3 ⟨le_trans (pt_free_mono _ _ _) hc.1, hc.2⟩
      rw [htail, hstep]

theorem copyCount_fwd_events (rel x y : Nat) :
    copyCount rel [LogEvent.copyingForwarded x, LogEvent.forwardedTo y] = 0 := by
  simp [copyCount]

theorem copyCount_fresh_events (rel a h b c : Nat) :
    copyCount rel [LogEvent.copyingObject a h, LogEvent.movingObject b c] =
      if a = rel then 1 else 0 := by
  by_cases hc : a = rel
  · simp [copyCount, hc]
  · simp [copyCount, hc]

/-- Forwarding a slot whose value has a different from-space offset than
`rel` never adds a `copying object` line for `rel`. -/
theorem pt_copyCount_ne (s : Runtime) (t f rel : Nat)
    (hne : s.mem t - s.from_space ≠ rel) :
    copyCount rel (process_transitive s t f).1.log = copyCount rel s.log := by
  by_cases h0 : s.mem t = 0
  · rw [pt_null s t f h0]
  · by_cases h1 : s.mem t < s.from_space ∨ s.from_space + s.heap_size / 2 ≤ s.mem t
    · rw [pt_foreign s t f h0 h1]
    · by_cases h2 : s.to_space ≤ s.mem (s.mem t - 1) ∧
          s.mem (s.mem t - 1) < s.to_space + s.heap_size / 2
      · rw [pt_forwarded s t f h0 h1 h2, Runtime.emit_log]
        split
        · rw [copyCount_append, copyCount_fwd_events]
          rfl
        · rw [List.append_nil]
      · rw [pt_fresh s t f h0 h1 h2]
        show copyCount rel (s.emit _).log = copyCount rel s.log
        rw [Runtime.emit_log]
        split
        · rw [copyCount_append, copyCount_fresh_events, if_neg hne]
          rfl
        · rw [List.append_nil]

/-- Invariant-carrying induction behind the aliasing/at-most-once claim.
State case A ("not yet copied"): the header of `p` holds no to-space
forwarding address and no `copying object` line for `p` has been printed.
State case B ("copied"): the header holds a forwarding address bounded by the
free cursor and exactly one `copying object` line for `p` exists.  Processing
any list of stack slots (all below the heap) preserves this, forwards every
slot holding `p` to one common to-space address, and never prints a second
`copying object` line for `p`. -/
theorem processSlots_alias_aux (slots : List Nat) (s : Runtime)
    (free0 p rel : Nat)
    (hgc : s.gc_log = true)
    (hp1 : s.from_space < p) (hp2 : p < s.from_space + s.heap_size / 2)
    (hsep : s.from_space + s.heap_size / 2 ≤ s.to_space)
    (hfree0 : s.to_space ≤ free0)
    (hslots : ∀ t ∈ slots, t + 1 < s.from_space)
    (hfit : (processSlots s free0 slots).2 < s.to_space + s.heap_size / 2)
    (hrel : rel = p - s.from_space)
    (hstate :
      (¬ (s.to_space ≤ s.mem (p - 1) ∧
            s.mem (p - 1) < s.to_space + s.heap_size / 2) ∧
        copyCount rel s.log = 0) ∨
      ((s.to_space ≤ s.mem (p - 1) ∧
            s.mem (p - 1) < s.to_space + s.heap_size / 2) ∧
        s.mem (p - 1) ≤ free0 ∧ copyCount rel s.log = 1)) :
    ∃ a, s.to_space ≤ a ∧
      ((s.to_space ≤ s.mem (p - 1) ∧
          s.mem (p - 1) < s.to_space + s.heap_size / 2) → a = s.mem (p - 1)) ∧
      (∀ t ∈ slots,
        (s.mem t = p → (processSlots s free0 slots).1.mem t = a) ∧
        (s.mem t = a → (processSlots s free0 slots).1.mem t = a)) ∧
      copyCount rel (processSlots s free0 slots).1.log ≤ 1 ∧
      (((∃ t ∈ slots, s.mem t = p) ∨
          (s.to_space ≤ s.mem (p - 1) ∧
            s.mem (p - 1) < s.to_space + s.heap_size / 2)) →
        (processSlots s free0 slots).1.mem (p - 1) = a ∧
        copyCount rel (processSlots s free0 slots).1.log = 1) := by
  induction slots generalizing s free0 with
  | nil =>
      simp only [processSlots]
      rcases hstate with ⟨hA, hcnt⟩ | ⟨hB, hBle, hcnt⟩
      · refine ⟨s.to_space, le_refl _, fun hc => absurd hc hA, ?_, ?_, ?_⟩
        · intro t ht
          exact absurd ht (List.not_mem_nil t)
        · rw [hcnt]
          exact Nat.zero_le 1
        · intro htr
          rcases htr with ⟨t, ht, _⟩ | hc
          · exact absurd ht (List.not_mem_nil t)
          · exact absurd hc hA
      · refine ⟨s.mem (p - 1), hB.1, fun _ => rfl, ?_, ?_, ?_⟩
        · intro t ht
          exact absurd ht (List.not_mem_nil t)
        · rw [hcnt]
        · intro _
          exact ⟨rfl, hcnt⟩
  | cons t rest ih =>
      simp only [processSlots] at hfit ⊢
      have htb : t + 1 < s.from_space := hslots t (List.mem_cons_self t rest)
      have hrestb : ∀ u ∈ rest, u + 1 < s.from_space :=
        fun u hu => hslots u (List.mem_cons_of_mem t hu)
      have hglob := pt_globals s t free0
      have hmono0 : free0 ≤ (process_transitive s t free0).2 := pt_free_mono s t free0
      have hmono1 : (process_transitive s t free0).2 ≤
          (processSlots (process_transitive s t free0).1
            (process_transitive s t free0).2 rest).2 :=
        processSlots_free_mono rest _ _
      have hppos : 0 < p := by omega
      have hpm1ge : s.from_space ≤ p - 1 := by omega
      have hpm1lt : p - 1 < s.to_space := by omega
      have hgc' : (process_transitive s t free0).1.gc_log = true := by
        rw [hglob.2.2.2.2.2]
        exact hgc
      have hp1' : (process_transitive s t free0).1.from_space < p := by
        rw [hglob.2.1]
        exact hp1
      have hp2' : p < (process_transitive s t free0).1.from_space +
          (process_transitive s t free0).1.heap_size / 2 := by
        rw [hglob.2.1, hglob.1]
        exact hp2
      have hsep' : (process_transitive s t free0).1.from_space +
          (process_transitive s t free0).1.heap_size / 2 ≤
          (process_transitive s t free0).1.to_space := by
        rw [hglob.2.1, hglob.1, hglob.2.2.1]
        exact hsep
      have hrestb' : ∀ u ∈ rest,
          u + 1 < (process_transitive s t free0).1.from_space := by
        rw [hglob.2.1]
        exact hrestb
      have hrel' : rel = p - (process_transitive s t free0).1.from_space := by
        rw [hglob.2.1]
        exact hrel
      have hfit' : (processSlots (process_transitive s t free0).1
            (process_transitive s t free0).2 rest).2 <
          (process_transitive s t free0).1.to_space +
            (process_transitive s t free0).1.heap_size / 2 := by
        rw [hglob.2.2.1, hglob.1]
        exact hfit
      have hfree0' : (process_transitive s t free0).1.to_space ≤
          (process_transitive s t free0).2 := by
        rw [hglob.2.2.1]
        omega
      by_cases hv0 : s.mem t = 0
      · -- null slot: the call is a no-op
        have heq : process_transitive s t free0 = (s, free0) := pt_null s t free0 hv0
        rw [heq] at hfit' hmono1 ⊢
        obtain ⟨a, k1, k2, k3, k4, k5⟩ :=
          ih s free0 hgc hp1 hp2 hsep hfree0 hrestb
            (by rw [heq] at hfit; exact hfit) hrel hstate
        refine ⟨a, k1, k2, ?_, k4, ?_⟩
        · intro u hu
          rcases List.mem_cons.mp hu with hu | hu
          · subst hu
            constructor
            · intro hvp
              exfalso
              omega
            · intro hva
              exfalso
              omega
          · exact k3 u hu
        · intro htr
          rcases htr with ⟨u, hu, hup⟩ | hc
          · rcases List.mem_cons.mp hu with hu | hu
            · subst hu
              exfalso
              omega
            · exact k5 (Or.inl ⟨u, hu, hup⟩)
          · exact k5 (Or.inr hc)
      · by_cases hvin : s.mem t < s.from_space ∨
            s.from_space + s.heap_size / 2 ≤ s.mem t
        · -- foreign slot value: the call is a no-op
          have heq : process_transitive s t free0 = (s, free0) :=
            pt_foreign s t free0 hv0 hvin
          rw [heq] at hfit' hmono1 ⊢
          obtain ⟨a, k1, k2, k3, k4, k5⟩ :=
            ih s free0 hgc hp1 hp2 hsep hfree0 hrestb
              (by rw [heq] at hfit; exact hfit) hrel hstate
          have hvnep : s.mem t ≠ p := by
            rcases hvin with hvin | hvin <;> omega
          refine ⟨a, k1, k2, ?_, k4, ?_⟩
          · intro u hu
            rcases List.mem_cons.mp hu with hu | hu
            · subst hu
              constructor
              · intro hvp
                exact absurd hvp hvnep
              · intro hva
                by_cases hmem : u ∈ rest
                · exact (k3 u hmem).2 hva
                · rw [processSlots_footprint rest s free0 u
                      (fun w hw he => hmem (he ▸ hw))
                      (by omega)
                      (by intro hc; omega)]
                  exact hva
            · exact k3 u hu
          · intro htr
            rcases htr with ⟨u, hu, hup⟩ | hc
            · rcases List.mem_cons.mp hu with hu | hu
              · subst hu
                exact absurd hup hvnep
              · exact k5 (Or.inl ⟨u, hu, hup⟩)
            · exact k5 (Or.inr hc)
        · -- slot value inside from-space
          have hvin' : s.from_space ≤ s.mem t ∧
              s.mem t < s.from_space + s.heap_size / 2 := by
            push_neg at hvin
            exact hvin
          by_cases hvp : s.mem t = p
          · -- the slot holds p itself
            rcases hstate with ⟨hA, hcnt⟩ | ⟨hB, hBle, hcnt⟩
            · -- case A: fresh copy of p at free0
              have hAcheck : ¬ (s.to_space ≤ s.mem (s.mem t - 1) ∧
                  s.mem (s.mem t - 1) < s.to_space + s.heap_size / 2) := by
                rw [hvp]
                exact hA
              have heq := pt_fresh s t free0 hv0 hvin hAcheck
              rw [hvp] at heq
              have hne_pt : p - 1 ≠ t := by omega
              have hnew_t : (process_transitive s t free0).1.mem t = free0 + 1 := by
                rw [heq]
                exact Mem.write_self _ _ _
              have hnew_a : (process_transitive s t free0).1.mem (p - 1) =
                  free0 + 1 := by
                rw [heq]
                show ((((s.mem.copyWords free0 (p - 1)
                    (1 + get_payload_words (s.mem (p - 1)))).write
                      (p - 1) (free0 + 1)).write t (free0 + 1))) (p - 1) = free0 + 1
                rw [Mem.write_other _ _ _ _ hne_pt]
                exact Mem.write_self _ _ _
              have hfree2 : (process_transitive s t free0).2 =
                  free0 + (1 + get_payload_words (s.mem (p - 1))) := by
                rw [heq]
              have hnew_log : (process_transitive s t free0).1.log =
                  s.log ++ [LogEvent.copyingObject (p - s.from_space) (s.mem (p - 1)),
                    LogEvent.movingObject (p - s.from_space)
                      (free0 + 1 - s.to_space)] := by
                rw [heq]
                show (s.emit [LogEvent.copyingObject (p - s.from_space) (s.mem (p - 1)),
                    LogEvent.movingObject (p - s.from_space)
                      (free0 + 1 - s.to_space)]).log = _
                rw [Runtime.emit_log, hgc]
                simp
              have hcnt_new : copyCount rel (process_transitive s t free0).1.log
                  = 1 := by
                rw [hnew_log, copyCount_append, copyCount_fresh_events,
                    if_pos (by omega : p - s.from_space = rel), hcnt]
              have hstate' :
                  (¬ ((process_transitive s t free0).1.to_space ≤
                        (process_transitive s t free0).1.mem (p - 1) ∧
                      (process_transitive s t free0).1.mem (p - 1) <
                        (process_transitive s t free0).1.to_space +
                          (process_transitive s t free0).1.heap_size / 2) ∧
                    copyCount rel (process_transitive s t free0).1.log = 0) ∨
                  (((process_transitive s t free0).1.to_space ≤
                        (process_transitive s t free0).1.mem (p - 1) ∧
                      (process_transitive s t free0).1.mem (p - 1) <
                        (process_transitive s t free0).1.to_space +
                          (process_transitive s t free0).1.heap_size / 2) ∧
                    (process_transitive s t free0).1.mem (p - 1) ≤
                      (process_transitive s t free0).2 ∧
                    copyCount rel (process_transitive s t free0).1.log = 1) := by
                refine Or.inr ⟨⟨?_, ?_⟩, ?_, hcnt_new⟩
                · rw [hnew_a, hglob.2.2.1]
                  omega
                · rw [hnew_a, hglob.2.2.1, hglob.1]
                  omega
                · rw [hnew_a, hfree2]
                  omega
              obtain ⟨a, k1, k2, k3, k4, k5⟩ :=
                ih (process_transitive s t free0).1 (process_transitive s t free0).2
                  hgc' hp1' hp2' hsep' hfree0' hrestb' hfit' hrel' hstate'
              have ha_eq : a = free0 + 1 := by
                rcases hstate' with ⟨hc, _⟩ | ⟨hc, _, _⟩
                · exfalso
                  apply hc
                  constructor
                  · rw [hnew_a, hglob.2.2.1]; omega
                  · rw [hnew_a, hglob.2.2.1, hglob.1]; omega
                · rw [k2 hc, hnew_a]
              have k1s : s.to_space ≤ a := by
                have := k1
                rw [hglob.2.2.1] at this
                exact this
              have hfinal_t : (processSlots (process_transitive s t free0).1
                  (process_transitive s t free0).2 rest).1.mem t = a := by
                by_cases hmem : t ∈ rest
                · exact (k3 t hmem).2 (by rw [hnew_t, ha_eq])
                · rw [processSlots_footprint rest
                      (process_transitive s t free0).1
                      (process_transitive s t free0).2 t
                      (fun u hu he => hmem (he ▸ hu))
                      (by rw [hglob.2.1, hglob.1]; omega)
                      (by intro hc; rw [hglob.2.2.1] at hfree0'; omega),
                    hnew_t, ha_eq]
              refine ⟨a, k1s, fun hc => absurd hc hA, ?_, k4, ?_⟩
              · intro u hu
                rcases List.mem_cons.mp hu with hu | hu
                · subst hu
                  constructor
                  · intro _
                    exact hfinal_t
                  · intro hva
                    exfalso
                    omega
                · constructor
                  · intro hup
                    by_cases hut : u = t
                    · subst hut
                      exact hfinal_t
                    · have hpres : (process_transitive s t free0).1.mem u =
                          s.mem u := by
                        apply pt_footprint s t free0 u hut
                          (by rw [hvp]; have := hrestb u hu; omega)
                        intro hc
                        have := hrestb u hu
                        omega
                      exact (k3 u hu).1 (by rw [hpres]; exact hup)
                  · intro hua
                    have hut : u ≠ t := by
                      intro he
                      subst he
                      omega
                    have hpres : (process_transitive s t free0).1.mem u =
                        s.mem u := by
                      apply pt_footprint s t free0 u hut
                        (by rw [hvp]; have := hrestb u hu; omega)
                      intro hc
                      have := hrestb u hu
                      omega
                    exact (k3 u hu).2 (by rw [hpres]; exact hua)
              · intro _
                have := k5 (Or.inr (by
                  constructor
                  · rw [hnew_a, hglob.2.2.1]; omega
                  · rw [hnew_a, hglob.2.2.1, hglob.1]; omega))
                exact this
            · -- case B: p already copied; forwarded branch
              have hBcheck : s.to_space ≤ s.mem (s.mem t - 1) ∧
                  s.mem (s.mem t - 1) < s.to_space + s.heap_size / 2 := by
                rw [hvp]
                exact hB
              have heq := pt_forwarded s t free0 hv0 hvin hBcheck
              rw [hvp] at heq
              have hne_pt : p - 1 ≠ t := by omega
              have hnew_t : (process_transitive s t free0).1.mem t =
                  s.mem (p - 1) := by
                rw [heq]
                show ({ s with mem := s.mem.write t (s.mem (p - 1)) }.emit
                  [LogEvent.copyingForwarded (p - s.from_space),
                   LogEvent.forwardedTo (s.mem (p - 1) - s.to_space)]).mem t = _
                rw [Runtime.emit_mem]
                exact Mem.write_self _ _ _
              have hnew_a : (process_transitive s t free0).1.mem (p - 1) =
                  s.mem (p - 1) := by
                rw [heq]
                show ({ s with mem := s.mem.write t (s.mem (p - 1)) }.emit
                  [LogEvent.copyingForwarded (p - s.from_space),
                   LogEvent.forwardedTo (s.mem (p - 1) - s.to_space)]).mem (p - 1) = _
                rw [Runtime.emit_mem]
                exact Mem.write_other _ _ _ _ hne_pt
              have hfree2 : (process_transitive s t free0).2 = free0 := by
                rw [heq]
              have hnew_log : (process_transitive s t free0).1.log =
                  s.log ++ [LogEvent.copyingForwarded (p - s.from_space),
                    LogEvent.forwardedTo (s.mem (p - 1) - s.to_space)] := by
                rw [heq]
                show ({ s with mem := s.mem.write t (s.mem (p - 1)) }.emit
                  [LogEvent.copyingForwarded (p - s.from_space),
                   LogEvent.forwardedTo (s.mem (p - 1) - s.to_space)]).log = _
                rw [Runtime.emit_log]
                simp [hgc]
              have hcnt_new : copyCount rel (process_transitive s t free0).1.log
                  = 1 := by
                rw [hnew_log, copyCount_append, copyCount_fwd_events, hcnt]
              have hstate' :
                  (¬ ((process_transitive s t free0).1.to_space ≤
                        (process_transitive s t free0).1.mem (p - 1) ∧
                      (process_transitive s t free0).1.mem (p - 1) <
                        (process_transitive s t free0).1.to_space +
                          (process_transitive s t free0).1.heap_size / 2) ∧
                    copyCount rel (process_transitive s t free0).1.log = 0) ∨
                  (((process_transitive s t free0).1.to_space ≤
                        (process_transitive s t free0).1.mem (p - 1) ∧
                      (process_transitive s t free0).1.mem (p - 1) <
                        (process_transitive s t free0).1.to_space +
                          (process_transitive s t free0).1.heap_size / 2) ∧
                    (process_transitive s t free0).1.mem (p - 1) ≤
                      (process_transitive s t free0).2 ∧
                    copyCount rel (process_transitive s t free0).1.log = 1) := by
                refine Or.inr ⟨⟨?_, ?_⟩, ?_, hcnt_new⟩
                · rw [hnew_a, hglob.2.2.1]
                  exact hB.1
                · rw [hnew_a, hglob.2.2.1, hglob.1]
                  exact hB.2
                · rw [hnew_a, hfree2]
                  exact hBle
              obtain ⟨a, k1, k2, k3, k4, k5⟩ :=
                ih (process_transitive s t free0).1 (process_transitive s t free0).2
                  hgc' hp1' hp2' hsep' hfree0' hrestb' hfit' hrel' hstate'
              have ha_eq : a = s.mem (p - 1) := by
                have hc : (process_transitive s t free0).1.to_space ≤
                    (process_transitive s t free0).1.mem (p - 1) ∧
                    (process_transitive s t free0).1.mem (p - 1) <
                      (process_transitive s t free0).1.to_space +
                        (process_transitive s t free0).1.heap_size / 2 := by
                  constructor
                  · rw [hnew_a, hglob.2.2.1]; exact hB.1
                  · rw [hnew_a, hglob.2.2.1, hglob.1]; exact hB.2
                rw [k2 hc, hnew_a]
              have k1s : s.to_space ≤ a := by
                rw [ha_eq]
                exact hB.1
              have hfinal_t : (processSlots (process_transitive s t free0).1
                  (process_transitive s t free0).2 rest).1.mem t = a := by
                by_cases hmem : t ∈ rest
                · exact (k3 t hmem).2 (by rw [hnew_t, ha_eq])
                · rw [processSlots_footprint rest
                      (process_transitive s t free0).1
                      (process_transitive s t free0).2 t
                      (fun u hu he => hmem (he ▸ hu))
                      (by rw [hglob.2.1, hglob.1]; omega)
                      (by intro hc; rw [hglob.2.2.1] at hfree0'; omega),
                    hnew_t, ha_eq]
              refine ⟨a, k1s, fun _ => ha_eq, ?_, k4, ?_⟩
              · intro u hu
                rcases List.mem_cons.mp hu with hu | hu
                · subst hu
                  constructor
                  · intro _
                    exact hfinal_t
                  · intro hva
                    exact hfinal_t
                · constructor
                  · intro hup
                    by_cases hut : u = t
                    · subst hut
                      exact hfinal_t
                    · have hpres : (process_transitive s t free0).1.mem u =
                          s.mem u := by
                        apply pt_footprint s t free0 u hut
                          (by rw [hvp]; have := hrestb u hu; omega)
                        intro hc
                        have := hrestb u hu
                        omega
                      exact (k3 u hu).1 (by rw [hpres]; exact hup)
                  · intro hua
                    by_cases hut : u = t
                    · subst hut
                      exact hfinal_t
                    · have hpres : (process_transitive s t free0).1.mem u =
                          s.mem u := by
                        apply pt_footprint s t free0 u hut
                          (by rw [hvp]; have := hrestb u hu; omega)
                        intro hc
                        have := hrestb u hu
                        omega
                      exact (k3 u hu).2 (by rw [hpres]; exact hua)
              · intro _
                exact k5 (Or.inr (by
                  constructor
                  · rw [hnew_a, hglob.2.2.1]; exact hB.1
                  · rw [hnew_a, hglob.2.2.1, hglob.1]; exact hB.2))
          · -- slot holds some other from-space pointer q ≠ p
            have hvq1 : 0 < s.mem t := Nat.pos_of_ne_zero hv0
            have hne_q : s.mem t - 1 ≠ p - 1 := by
              intro he
              apply hvp
              omega
            have hpres_a : (process_transitive s t free0).1.mem (p - 1) =
                s.mem (p - 1) := by
              apply pt_footprint s t free0 (p - 1) (by omega)
                (fun he => hne_q he.symm)
              intro hc
              omega
            have hcnt_pres : copyCount rel (process_transitive s t free0).1.log =
                copyCount rel s.log := by
              apply pt_copyCount_ne
              intro he
              apply hvp
              omega
            have hstate' :
                (¬ ((process_transitive s t free0).1.to_space ≤
                      (process_transitive s t free0).1.mem (p - 1) ∧
                    (process_transitive s t free0).1.mem (p - 1) <
                      (process_transitive s t free0).1.to_space +
                        (process_transitive s t free0).1.heap_size / 2) ∧
                  copyCount rel (process_transitive s t free0).1.log = 0) ∨
                (((process_transitive s t free0).1.to_space ≤
                      (process_transitive s t free0).1.mem (p - 1) ∧
                    (process_transitive s t free0).1.mem (p - 1) <
                      (process_transitive s t free0).1.to_space +
                        (process_transitive s t free0).1.heap_size / 2) ∧
                  (process_transitive s t free0).1.mem (p - 1) ≤
                    (process_transitive s t free0).2 ∧
                  copyCount rel (process_transitive s t free0).1.log = 1) := by
              rcases hstate with ⟨hA, hcnt⟩ | ⟨hB, hBle, hcnt⟩
              · refine Or.inl ⟨?_, by rw [hcnt_pres]; exact hcnt⟩
                rw [hpres_a, hglob.2.2.1, hglob.1]
                exact hA
              · refine Or.inr ⟨?_, ?_, by rw [hcnt_pres]; exact hcnt⟩
                · rw [hpres_a, hglob.2.2.1, hglob.1]
                  exact hB
                · rw [hpres_a]
                  omega
            obtain ⟨a, k1, k2, k3, k4, k5⟩ :=
              ih (process_transitive s t free0).1 (process_transitive s t free0).2
                hgc' hp1' hp2' hsep' hfree0' hrestb' hfit' hrel' hstate'
            have k1s : s.to_space ≤ a := by
              have := k1
              rw [hglob.2.2.1] at this
              exact this
            have hvne_a : s.mem t ≠ a := by
              intro he
              omega
            refine ⟨a, k1s, ?_, ?_, k4, ?_⟩
            · intro hc
              rw [k2 (by
                constructor
                · rw [hpres_a, hglob.2.2.1]; exact hc.1
                · rw [hpres_a, hglob.2.2.1, hglob.1]; exact hc.2), hpres_a]
            · intro u hu
              rcases List.mem_cons.mp hu with hu | hu
              · subst hu
                constructor
                · intro hup
                  exact absurd hup hvp
                · intro hua
                  exact absurd hua hvne_a
              · have hut_or : u = t ∨ u ≠ t := em _
                constructor
                · intro hup
                  have hut : u ≠ t := by
                    intro he
                    subst he
                    exact hvp hup
                  have hpres : (process_transitive s t free0).1.mem u =
                      s.mem u := by
                    apply pt_footprint s t free0 u hut
                      (by have := hrestb u hu; omega)
                    intro hc
                    have := hrestb u hu
                    omega
                  exact (k3 u hu).1 (by rw [hpres]; exact hup)
                · intro hua
                  have hut : u ≠ t := by
                    intro he
                    subst he
                    exact hvne_a hua
                  have hpres : (process_transitive s t free0).1.mem u =
                      s.mem u := by
                    apply pt_footprint s t free0 u hut
                      (by have := hrestb u hu; omega)
                    intro hc
                    have := hrestb u hu
                    omega
                  exact (k3 u hu).2 (by rw [hpres]; exact hua)
            · intro htr
              have hres : (processSlots (process_transitive s t free0).1
                    (process_transitive s t free0).2 rest).1.mem (p - 1) = a ∧
                  copyCount rel (processSlots (process_transitive s t free0).1
                    (process_transitive s t free0).2 rest).1.log = 1 := by
                apply k5
                rcases htr with ⟨u, hu, hup⟩ | hc
                · rcases List.mem_cons.mp hu with hu | hu
                  · subst hu
                    exact absurd hup hvp
                  · refine Or.inl ⟨u, hu, ?_⟩
                    have hut : u ≠ t := by
                      intro he
                      subst he
                      exact hvp hup
                    have hpres : (process_transitive s t free0).1.mem u =
                        s.mem u := by
                      apply pt_footprint s t free0 u hut
                        (by have := hrestb u hu; omega)
                      intro hc2
                      have := hrestb u hu
                      omega
                    rw [hpres]
                    exact hup
                · refine Or.inr ?_
                  constructor
                  · rw [hpres_a, hglob.2.2.1]; exact hc.1
                  · rw [hpres_a, hglob.2.2.1, hglob.1]; exact hc.2
              exact hres

/-- **C3.** Within a single collection, sequentially forwarding any list of
slots (all lying below the heap, as the compiler's stack slots do, in a
fresh-log collection that fits in to-space) copies a given from-space object
`p` at most once: at most one `---- copying object` log line carries `p`'s
relative address — exactly one as soon as some slot holds `p` — because the
forwarding check short-circuits repeat visits; and every slot that referenced
`p` before holds one common to-space payload address afterwards
(aliasing / pointer-equality preserved). -/
theorem forward_copies_once_preserves_aliasing (slots : List Nat) (s : Runtime)
    (free0 p : Nat)
    (hgc : s.gc_log = true) (hlog : s.log = [])
    (hp1 : s.from_space < p) (hp2 : p < s.from_space + s.heap_size / 2)
    (hfresh : ¬ (s.to_space ≤ s.mem (p - 1) ∧
        s.mem (p - 1) < s.to_space + s.heap_size / 2))
    (hsep : s.from_space + s.heap_size / 2 ≤ s.to_space)
    (hfree0 : s.to_space ≤ free0)
    (hslots : ∀ t ∈ slots, t + 1 < s.from_space)
    (hfit : (processSlots s free0 slots).2 < s.to_space + s.heap_size / 2) :
    ∃ a, s.to_space ≤ a ∧
      (∀ t ∈ slots, s.mem t = p →
        (processSlots s free0 slots).1.mem t = a) ∧
      copyCount (p - s.from_space) (processSlots s free0 slots).1.log ≤ 1 ∧
      ((∃ t ∈ slots, s.mem t = p) →
        copyCount (p - s.from_space) (processSlots s free0 slots).1.log = 1) := by
  obtain ⟨a, k1, k2, k3, k4, k5⟩ :=
    processSlots_alias_aux slots s free0 p (p - s.from_space) hgc hp1 hp2 hsep
      hfree0 hslots hfit rfl
      (Or.inl ⟨hfresh, by rw [hlog]; rfl⟩)
  exact ⟨a, k1, fun t ht hp => (k3 t ht).1 hp, k4,
    fun he => (k5 (Or.inl he)).2⟩

/-- Aliasing scenario: slots 50 and 51 both hold the from-space payload
address 101 (header 10 at 100: atomic array of length 1). -/
def aliasState : Runtime :=
  { heap_size := 16, from_space := 100, to_space := 108, bump_ptr := 104,
    base_frame_ptr := 500, gc_log := true,
    mem := fun x => if x = 50 then 101 else if x = 51 then 101 else
      if x = 100 then 10 else if x = 101 then 42 else 0,
    log := [] }

theorem forward_copies_once_preserves_aliasing_witness :
    (processSlots aliasState 108 [50, 51]).2 <
      aliasState.to_space + aliasState.heap_size / 2 ∧
    ∃ a, aliasState.to_space ≤ a ∧
      (∀ t ∈ [50, 51], aliasState.mem t = 101 →
        (processSlots aliasState 108 [50, 51]).1.mem t = a) ∧
      copyCount (101 - aliasState.from_space)
        (processSlots aliasState 108 [50, 51]).1.log = 1 := by
  refine ⟨by decide, ?_⟩
  obtain ⟨a, k1, k2, _, k4⟩ :=
    forward_copies_once_preserves_aliasing [50, 51] aliasState 108 101
      rfl rfl (by decide) (by decide) (by decide) (by decide) (by decide)
      (by decide) (by decide)
  exact ⟨a, k1, k2, k4 ⟨50, by decide, by decide⟩⟩

theorem emit_copyCount_zero (s : Runtime) (es : List LogEvent) (rel : Nat)
    (h : copyCount rel es = 0) :
    copyCount rel (s.emit es).log = copyCount rel s.log := by
  rw [Runtime.emit_log]
  split
  · rw [copyCount_append, h]
    rfl
  · rw [List.append_nil]

theorem pt_copyCount_mono (s : Runtime) (t f rel : Nat) :
    copyCount rel s.log ≤ copyCount rel (process_transitive s t f).1.log := by
  by_cases h0 : s.mem t = 0
  · rw [pt_null s t f h0]
  · by_cases h1 : s.mem t < s.from_space ∨ s.from_space + s.heap_size / 2 ≤ s.mem t
    · rw [pt_foreign s t f h0 h1]
    · by_cases h2 : s.to_space ≤ s.mem (s.mem t - 1) ∧
          s.mem (s.mem t - 1) < s.to_space + s.heap_size / 2
      · rw [pt_forwarded s t f h0 h1 h2, Runtime.emit_log]
        split
        · rw [copyCount_append]
          exact Nat.le_add_right _ _
        · rw [List.append_nil]
      · rw [pt_fresh s t f h0 h1 h2]
        show copyCount rel s.log ≤ copyCount rel (s.emit _).log
        rw [Runtime.emit_log]
        split
        · rw [copyCount_append]
          exact Nat.le_add_right _ _
        · rw [List.append_nil]

theorem tracked_emit (p rel : Nat) (s : Runtime) (free : Nat)
    (es : List LogEvent) (hz : copyCount rel es = 0)
    (htr : Tracked p rel s free) : Tracked p rel (s.emit es) free := by
  unfold Tracked at htr ⊢
  rw [Runtime.emit_mem, Runtime.emit_to_space, Runtime.emit_heap_size,
    emit_copyCount_zero s es rel hz]
  exact htr

theorem slotclause_emit (p t0 : Nat) (s : Runtime) (es : List LogEvent)
    (hc : SlotClause p t0 s) : SlotClause p t0 (s.emit es) := by
  unfold SlotClause at hc ⊢
  rw [Runtime.emit_mem, Runtime.emit_to_space, Runtime.emit_heap_size]
  exact hc

theorem scanStep_free_mono (st : Runtime × Nat × Nat) :
    st.2.2 ≤ (scanStep st).2.2 := by
  unfold scanStep
  split
  · exact scan_object_free_mono _ _ _
  · exact le_refl _

theorem scanRun_free_mono (k : Nat) (st : Runtime × Nat × Nat) :
    st.2.2 ≤ (scanRun k st).2.2 := by
  induction k generalizing st with
  | zero => exact le_refl _
  | succ k ih =>
      exact le_trans (scanStep_free_mono st) (ih (scanStep st))

theorem scanStep_scan_mono (st : Runtime × Nat × Nat) :
    st.2.1 ≤ (scanStep st).2.1 := by
  unfold scanStep
  split
  · rw [scan_object_scan]
    exact Nat.le_add_right _ _
  · exact le_refl _

theorem processFramesC_free_mono (pairs : List (Nat × Nat)) (s : Runtime)
    (free idx : Nat) :
    free ≤ (processFramesC s free idx pairs).2 := by
  induction pairs generalizing s free idx with
  | nil => exact le_refl free
  | cons fc rest ih =>
      obtain ⟨f, c⟩ := fc
      simp only [processFramesC]
      exact le_trans (processRootSlots_free_mono _ _ _ _) (ih _ _ _)

/-- One `process_transitive` call preserves the tracking state of a
from-space object `p` and of a slot `t0` that referenced it, provided the
called slot and `t0` each lie below the heap or at/above to-space (`t0` above
the bound `B` on the collection's free cursor), every free-cursor value stays
at most `B`, and `B` is inside to-space.  When the call processes `t0`
itself, `t0` ends up holding the forwarding address stored in `p`'s header. -/
theorem pt_step (s : Runtime) (t f p rel t0 B : Nat)
    (hgc : s.gc_log = true)
    (hp1 : s.from_space < p) (hp2 : p < s.from_space + s.heap_size / 2)
    (hsep : s.from_space + s.heap_size / 2 ≤ s.to_space)
    (ht : t + 1 < s.from_space ∨ s.to_space ≤ t)
    (hf0 : s.to_space ≤ f)
    (hfB : (process_transitive s t f).2 ≤ B)
    (hBfit : B < s.to_space + s.heap_size / 2)
    (ht0 : t0 + 1 < s.from_space ∨ (s.to_space ≤ t0 ∧ B ≤ t0))
    (hrel : rel = p - s.from_space)
    (htr : Tracked p rel s f) :
    Tracked p rel (process_transitive s t f).1 (process_transitive s t f).2 ∧
    (SlotClause p t0 s → SlotClause p t0 (process_transitive s t f).1) ∧
    (t = t0 → SlotClause p t0 s →
      (s.to_space ≤ (process_transitive s t f).1.mem (p - 1) ∧
        (process_transitive s t f).1.mem (p - 1) <
          s.to_space + s.heap_size / 2) ∧
      (process_transitive s t f).1.mem t0 =
        (process_transitive s t f).1.mem (p - 1)) := by
  have hglob := pt_globals s t f
  have hppos : 0 < p := by omega
  have ht_ne : t ≠ p - 1 := by rcases ht with h | h <;> omega
  have hpt : p - 1 ≠ t := fun he => ht_ne he.symm
  have ht0_ne : t0 ≠ p - 1 := by rcases ht0 with h | ⟨h1, h2⟩ <;> omega
  have hfmono : f ≤ (process_transitive s t f).2 := pt_free_mono s t f
  by_cases hv0 : s.mem t = 0
  · have heq : process_transitive s t f = (s, f) := pt_null s t f hv0
    rw [heq]
    refine ⟨htr, fun hc => hc, ?_⟩
    intro htt hc
    subst htt
    unfold SlotClause at hc
    rcases hc with hc | hc
    · exfalso
      omega
    · exact ⟨hc.1, hc.2⟩
  · by_cases hvin : s.mem t < s.from_space ∨
        s.from_space + s.heap_size / 2 ≤ s.mem t
    · have heq : process_transitive s t f = (s, f) := pt_foreign s t f hv0 hvin
      rw [heq]
      refine ⟨htr, fun hc => hc, ?_⟩
      intro htt hc
      subst htt
      unfold SlotClause at hc
      rcases hc with hc | hc
      · exfalso
        rcases hvin with h | h <;> omega
      · exact ⟨hc.1, hc.2⟩
    · have hvin' : s.from_space ≤ s.mem t ∧
          s.mem t < s.from_space + s.heap_size / 2 := by
        push_neg at hvin
        exact hvin
      have hv1 : 0 < s.mem t := Nat.pos_of_ne_zero hv0
      by_cases hvp : s.mem t = p
      · unfold Tracked at htr
        rcases htr with ⟨hA, hcnt⟩ | ⟨hB, hBle, hcnt⟩
        · -- not yet copied: fresh copy of p at f
          have hAcheck : ¬ (s.to_space ≤ s.mem (s.mem t - 1) ∧
              s.mem (s.mem t - 1) < s.to_space + s.heap_size / 2) := by
            rw [hvp]
            exact hA
          have heq := pt_fresh s t f hv0 hvin hAcheck
          rw [hvp] at heq
          have hnew_t : (process_transitive s t f).1.mem t = f + 1 := by
            rw [heq]
            exact Mem.write_self _ _ _
          have hnew_a : (process_transitive s t f).1.mem (p - 1) = f + 1 := by
            rw [heq]
            show ((((s.mem.copyWords f (p - 1)
                (1 + get_payload_words (s.mem (p - 1)))).write
                  (p - 1) (f + 1)).write t (f + 1))) (p - 1) = f + 1
            rw [Mem.write_other _ _ _ _ hpt]
            exact Mem.write_self _ _ _
          have hfree2 : (process_transitive s t f).2 =
              f + (1 + get_payload_words (s.mem (p - 1))) := by
            rw [heq]
          have hnew_log : (process_transitive s t f).1.log =
              s.log ++ [LogEvent.copyingObject (p - s.from_space) (s.mem (p - 1)),
                LogEvent.movingObject (p - s.from_space) (f + 1 - s.to_space)] := by
            rw [heq]
            show (s.emit [LogEvent.copyingObject (p - s.from_space) (s.mem (p - 1)),
                LogEvent.movingObject (p - s.from_space) (f + 1 - s.to_space)]).log = _
            rw [Runtime.emit_log, hgc]
            simp
          have hcnt_new : copyCount rel (process_transitive s t f).1.log = 1 := by
            rw [hnew_log, copyCount_append, copyCount_fresh_events,
                if_pos (by omega : p - s.from_space = rel), hcnt]
          have hother : ∀ x, x ≠ t →
              (x + 1 < s.from_space ∨ (s.to_space ≤ x ∧ B ≤ x)) →
              (process_transitive s t f).1.mem x = s.mem x := by
            intro x hx hxr
            apply pt_footprint s t f x hx
            · rw [hvp]
              rcases hxr with h | ⟨h1, h2⟩ <;> omega
            · rcases hxr with h | ⟨h1, h2⟩ <;> (intro hcc; omega)
          refine ⟨?_, ?_, ?_⟩
          · unfold Tracked
            refine Or.inr ⟨⟨?_, ?_⟩, ?_, hcnt_new⟩
            · rw [hglob.2.2.1, hnew_a]
              omega
            · rw [hglob.2.2.1, hglob.1, hnew_a]
              omega
            · rw [hnew_a, hfree2]
              omega
          · intro hc
            unfold SlotClause at hc ⊢
            rw [hglob.2.2.1, hglob.1, hnew_a]
            by_cases htt : t = t0
            · subst htt
              refine Or.inr ⟨⟨by omega, by omega⟩, hnew_t⟩
            · rcases hc with hc | hc
              · refine Or.inl ?_
                rw [hother t0 (fun he => htt he.symm) ht0]
                exact hc
              · exact absurd hc.1 hA
          · intro htt hc
            subst htt
            unfold SlotClause at hc
            rcases hc with hc | hc
            · refine ⟨⟨?_, ?_⟩, ?_⟩
              · rw [hnew_a]
                omega
              · rw [hnew_a]
                omega
              · rw [hnew_t, hnew_a]
            · exact absurd hc.1 hA
        · -- already copied: forwarded branch
          have hBcheck : s.to_space ≤ s.mem (s.mem t - 1) ∧
              s.mem (s.mem t - 1) < s.to_space + s.heap_size / 2 := by
            rw [hvp]
            exact hB
          have heq := pt_forwarded s t f hv0 hvin hBcheck
          rw [hvp] at heq
          have hnew_t : (process_transitive s t f).1.mem t = s.mem (p - 1) := by
            rw [heq]
            show ({ s with mem := s.mem.write t (s.mem (p - 1)) }.emit
              [LogEvent.copyingForwarded (p - s.from_space),
               LogEvent.forwardedTo (s.mem (p - 1) - s.to_space)]).mem t = _
            rw [Runtime.emit_mem]
            exact Mem.write_self _ _ _
          have hnew_a : (process_transitive s t f).1.mem (p - 1) =
              s.mem (p - 1) := by
            rw [heq]
            show ({ s with mem := s.mem.write t (s.mem (p - 1)) }.emit
              [LogEvent.copyingForwarded (p - s.from_space),
               LogEvent.forwardedTo (s.mem (p - 1) - s.to_space)]).mem (p - 1) = _
            rw [Runtime.emit_mem]
            exact Mem.write_other _ _ _ _ hpt
          have hfree2 : (process_transitive s t f).2 = f := by
            rw [heq]
          have hnew_log : (process_transitive s t f).1.log =
              s.log ++ [LogEvent.copyingForwarded (p - s.from_space),
                LogEvent.forwardedTo (s.mem (p - 1) - s.to_space)] := by
            rw [heq]
            show ({ s with mem := s.mem.write t (s.mem (p - 1)) }.emit
              [LogEvent.copyingForwarded (p - s.from_space),
               LogEvent.forwardedTo (s.mem (p - 1) - s.to_space)]).log = _
            rw [Runtime.emit_log]
            simp [hgc]
          have hcnt_new : copyCount rel (process_transitive s t f).1.log = 1 := by
            rw [hnew_log, copyCount_append, copyCount_fwd_events, hcnt]
          have hother : ∀ x, x ≠ t →
              (process_transitive s t f).1.mem x = s.mem x := by
            intro x hx
            rw [heq]
            show ({ s with mem := s.mem.write t (s.mem (p - 1)) }.emit
              [LogEvent.copyingForwarded (p - s.from_space),
               LogEvent.forwardedTo (s.mem (p - 1) - s.to_space)]).mem x = _
            rw [Runtime.emit_mem]
            exact Mem.write_other _ _ _ _ hx
          refine ⟨?_, ?_, ?_⟩
          · unfold Tracked
            refine Or.inr ⟨⟨?_, ?_⟩, ?_, hcnt_new⟩
            · rw [hglob.2.2.1, hnew_a]
              exact hB.1
            · rw [hglob.2.2.1, hglob.1, hnew_a]
              exact hB.2
            · rw [hnew_a, hfree2]
              exact hBle
          · intro hc
            unfold SlotClause at hc ⊢
            rw [hglob.2.2.1, hglob.1, hnew_a]
            by_cases htt : t = t0
            · subst htt
              exact Or.inr ⟨⟨hB.1, hB.2⟩, hnew_t⟩
            · rw [hother t0 (fun he => htt he.symm)]
              exact hc
          · intro htt hc
            subst htt
            refine ⟨⟨?_, ?_⟩, ?_⟩
            · rw [hnew_a]
              exact hB.1
            · rw [hnew_a]
              exact hB.2
            · rw [hnew_t, hnew_a]
      · -- slot holds a different from-space pointer
        have hpm1_pres : (process_transitive s t f).1.mem (p - 1) =
            s.mem (p - 1) := by
          apply pt_footprint s t f (p - 1) hpt
          · intro he
            omega
          · intro hcc
            omega
        have hcnt_pres : copyCount rel (process_transitive s t f).1.log =
            copyCount rel s.log := by
          apply pt_copyCount_ne
          intro he
          omega
        have hother : ∀ x, x ≠ t →
            (x + 1 < s.from_space ∨ (s.to_space ≤ x ∧ B ≤ x)) →
            (process_transitive s t f).1.mem x = s.mem x := by
          intro x hx hxr
          apply pt_footprint s t f x hx
          · rcases hxr with h | ⟨h1, h2⟩ <;> omega
          · rcases hxr with h | ⟨h1, h2⟩ <;> (intro hcc; omega)
        refine ⟨?_, ?_, ?_⟩
        · unfold Tracked at htr ⊢
          rw [hglob.2.2.1, hglob.1, hpm1_pres, hcnt_pres]
          rcases htr with ⟨hA, hcnt⟩ | ⟨hB, hBle, hcnt⟩
          · exact Or.inl ⟨hA, hcnt⟩
          · exact Or.inr ⟨hB, by omega, hcnt⟩
        · intro hc
          unfold SlotClause at hc ⊢
          rw [hglob.2.2.1, hglob.1, hpm1_pres]
          by_cases htt : t = t0
          · subst htt
            exfalso
            rcases hc with hc | hc
            · omega
            · omega
          · rw [hother t0 (fun he => htt he.symm) ht0]
            exact hc
        · intro htt hc
          subst htt
          exfalso
          unfold SlotClause at hc
          rcases hc with hc | hc
          · omega
          · omega

theorem slotdone_emit (p t0 : Nat) (s : Runtime) (es : List LogEvent)
    (hd : SlotDone p t0 s) : SlotDone p t0 (s.emit es) := by
  unfold SlotDone at hd ⊢
  rw [Runtime.emit_mem, Runtime.emit_to_space, Runtime.emit_heap_size]
  exact hd

/-- A `process_transitive` call on a safe slot preserves the processed state
of a slot `t0`: once `p` is forwarded and `t0` holds the forwarding address,
later calls change neither. -/
theorem pt_done (s : Runtime) (t f p t0 B : Nat)
    (hp1 : s.from_space < p)
    (hp2 : p < s.from_space + s.heap_size / 2)
    (hsep : s.from_space + s.heap_size / 2 ≤ s.to_space)
    (ht : t + 1 < s.from_space ∨ s.to_space ≤ t)
    (hf0 : s.to_space ≤ f)
    (hfB : (process_transitive s t f).2 ≤ B)
    (ht0 : t0 + 1 < s.from_space ∨ (s.to_space ≤ t0 ∧ B ≤ t0))
    (hd : SlotDone p t0 s) : SlotDone p t0 (process_transitive s t f).1 := by
  have hglob := pt_globals s t f
  have ht_ne : t ≠ p - 1 := by rcases ht with h | h <;> omega
  have hpt : p - 1 ≠ t := fun he => ht_ne he.symm
  unfold SlotDone at hd ⊢
  rw [hglob.2.2.1, hglob.1]
  by_cases hv0 : s.mem t = 0
  · rw [pt_null s t f hv0]
    exact hd
  · by_cases hvin : s.mem t < s.from_space ∨
        s.from_space + s.heap_size / 2 ≤ s.mem t
    · rw [pt_foreign s t f hv0 hvin]
      exact hd
    · have hvin' : s.from_space ≤ s.mem t ∧
          s.mem t < s.from_space + s.heap_size / 2 := by
        push_neg at hvin
        exact hvin
      have hv1 : 0 < s.mem t := Nat.pos_of_ne_zero hv0
      by_cases hvp : s.mem t = p
      · have hBcheck : s.to_space ≤ s.mem (s.mem t - 1) ∧
            s.mem (s.mem t - 1) < s.to_space + s.heap_size / 2 := by
          rw [hvp]
          exact hd.1
        have heq := pt_forwarded s t f hv0 hvin hBcheck
        rw [hvp] at heq
        have hmem : ∀ x, (process_transitive s t f).1.mem x =
            (s.mem.write t (s.mem (p - 1))) x := by
          intro x
          rw [heq]
          show ({ s with mem := s.mem.write t (s.mem (p - 1)) }.emit
            [LogEvent.copyingForwarded (p - s.from_space),
             LogEvent.forwardedTo (s.mem (p - 1) - s.to_space)]).mem x = _
          rw [Runtime.emit_mem]
        have ha : (process_transitive s t f).1.mem (p - 1) = s.mem (p - 1) := by
          rw [hmem]
          exact Mem.write_other _ _ _ _ hpt
        refine ⟨by rw [ha]; exact hd.1, ?_⟩
        by_cases htt : t = t0
        · subst htt
          rw [ha, hmem]
          exact Mem.write_self _ _ _
        · rw [ha, hmem]
          exact (Mem.write_other _ _ _ _ (fun he => htt he.symm)).trans hd.2
      · have ha : (process_transitive s t f).1.mem (p - 1) = s.mem (p - 1) := by
          apply pt_footprint s t f (p - 1) hpt
          · intro he
            omega
          · intro hcc
            omega
        have htne : t0 ≠ t := by
          intro he
          have h1 : s.to_space ≤ s.mem t0 := by
            rw [hd.2]
            exact hd.1.1
          rw [he] at h1
          omega
        have ht0' : (process_transitive s t f).1.mem t0 = s.mem t0 := by
          apply pt_footprint s t f t0 htne
          · rcases ht0 with h | ⟨h1, h2⟩ <;> omega
          · rcases ht0 with h | ⟨h1, h2⟩ <;> (intro hcc; omega)
        exact ⟨by rw [ha]; exact hd.1, by rw [ha, ht0']; exact hd.2⟩

/-- Processing a list of field slots in to-space preserves the tracking state
of `p`, the slot clause and the processed state of `t0`. -/
theorem processFields_tracked (offs : List Nat) (s : Runtime)
    (free fields p rel t0 B : Nat)
    (hgc : s.gc_log = true)
    (hp1 : s.from_space < p) (hp2 : p < s.from_space + s.heap_size / 2)
    (hsep : s.from_space + s.heap_size / 2 ≤ s.to_space)
    (hfl : s.to_space ≤ fields)
    (hf0 : s.to_space ≤ free)
    (hfB : (processFields s free fields offs).2 ≤ B)
    (hBfit : B < s.to_space + s.heap_size / 2)
    (ht0 : t0 + 1 < s.from_space ∨ (s.to_space ≤ t0 ∧ B ≤ t0))
    (hrel : rel = p - s.from_space)
    (htr : Tracked p rel s free) :
    Tracked p rel (processFields s free fields offs).1
      (processFields s free fields offs).2 ∧
    (SlotClause p t0 s → SlotClause p t0 (processFields s free fields offs).1) ∧
    (SlotDone p t0 s → SlotDone p t0 (processFields s free fields offs).1) := by
  induction offs generalizing s free with
  | nil => exact ⟨htr, fun hc => hc, fun hd => hd⟩
  | cons i rest ih =>
      simp only [processFields] at hfB ⊢
      have hglob := pt_globals s (fields + i) free
      have hti : fields + i + 1 < s.from_space ∨ s.to_space ≤ fields + i :=
        Or.inr (le_trans hfl (Nat.le_add_right _ _))
      have hcall : (process_transitive s (fields + i) free).2 ≤ B :=
        le_trans (processFields_free_mono rest _ _ fields) hfB
      have hstep := pt_step s (fields + i) free p rel t0 B hgc hp1 hp2 hsep
        hti hf0 hcall hBfit ht0 hrel htr
      have hdone := pt_done s (fields + i) free p t0 B hp1 hp2 hsep hti hf0
        hcall ht0
      have hnext := ih (process_transitive s (fields + i) free).1
        (process_transitive s (fields + i) free).2
        (hglob.2.2.2.2.2.trans hgc)
        (by rw [hglob.2.1]; exact hp1)
        (by rw [hglob.2.1, hglob.1]; exact hp2)
        (by rw [hglob.2.1, hglob.1, hglob.2.2.1]; exact hsep)
        (by rw [hglob.2.2.1]; exact hfl)
        (by rw [hglob.2.2.1]
            exact le_trans hf0 (pt_free_mono s (fields + i) free))
        hfB
        (by rw [hglob.2.2.1, hglob.1]; exact hBfit)
        (by rcases ht0 with h | ⟨h1, h2⟩
            · exact Or.inl (by rw [hglob.2.1]; exact h)
            · exact Or.inr ⟨by rw [hglob.2.2.1]; exact h1, h2⟩)
        (by rw [hglob.2.1]; exact hrel)
        hstep.1
      exact ⟨hnext.1, fun hc => hnext.2.1 (hstep.2.1 hc),
        fun hd => hnext.2.2 (hdone hd)⟩

/-- Every branch of `scan_object` has the shape: emit the header line, forward
some list of payload offsets, emit the advance line, and move the scan cursor
past the object (the branches with no pointer fields use the empty list). -/
theorem scan_object_shape (s : Runtime) (scan free : Nat) : ∃ offs : List Nat,
    scan_object s scan free =
      ((processFields (s.emit [LogEvent.scanHeader (s.mem scan)]) free
          (scan + 1) offs).1.emit
        [LogEvent.scanAdvance (1 + get_payload_words (s.mem scan))],
       scan + (1 + get_payload_words (s.mem scan)),
       (processFields (s.emit [LogEvent.scanHeader (s.mem scan)]) free
          (scan + 1) offs).2) := by
  simp only [scan_object]
  split_ifs with h1 h2 h3 h4 h5
  · exact ⟨_, rfl⟩
  · exact ⟨_, rfl⟩
  · exact ⟨[], rfl⟩
  · exact ⟨_, rfl⟩
  · exact ⟨[], rfl⟩
  · exact ⟨[], rfl⟩

/-- Scanning one to-space object preserves the tracking state of `p`, the slot
clause and the processed state of `t0`. -/
theorem scan_object_tracked (s : Runtime) (scan free p rel t0 B : Nat)
    (hgc : s.gc_log = true)
    (hp1 : s.from_space < p) (hp2 : p < s.from_space + s.heap_size / 2)
    (hsep : s.from_space + s.heap_size / 2 ≤ s.to_space)
    (hscan : s.to_space ≤ scan)
    (hf0 : s.to_space ≤ free)
    (hfB : (scan_object s scan free).2.2 ≤ B)
    (hBfit : B < s.to_space + s.heap_size / 2)
    (ht0 : t0 + 1 < s.from_space ∨ (s.to_space ≤ t0 ∧ B ≤ t0))
    (hrel : rel = p - s.from_space)
    (htr : Tracked p rel s free) :
    Tracked p rel (scan_object s scan free).1 (scan_object s scan free).2.2 ∧
    (SlotClause p t0 s → SlotClause p t0 (scan_object s scan free).1) ∧
    (SlotDone p t0 s → SlotDone p t0 (scan_object s scan free).1) := by
  obtain ⟨offs, heq⟩ := scan_object_shape s scan free
  rw [heq] at hfB ⊢
  have hfB' : (processFields (s.emit [LogEvent.scanHeader (s.mem scan)]) free
      (scan + 1) offs).2 ≤ B := hfB
  set s0 := s.emit [LogEvent.scanHeader (s.mem scan)] with hs0
  have hPF := processFields_tracked offs s0 free (scan + 1) p rel t0 B
    (by rw [hs0, Runtime.emit_gc_log]; exact hgc)
    (by rw [hs0, Runtime.emit_from_space]; exact hp1)
    (by rw [hs0, Runtime.emit_from_space, Runtime.emit_heap_size]; exact hp2)
    (by rw [hs0, Runtime.emit_from_space, Runtime.emit_heap_size,
        Runtime.emit_to_space]
        exact hsep)
    (by rw [hs0, Runtime.emit_to_space]; omega)
    (by rw [hs0, Runtime.emit_to_space]; exact hf0)
    hfB'
    (by rw [hs0, Runtime.emit_to_space, Runtime.emit_heap_size]; exact hBfit)
    (by rcases ht0 with h | ⟨h1, h2⟩
        · exact Or.inl (by rw [hs0, Runtime.emit_from_space]; exact h)
        · exact Or.inr ⟨by rw [hs0, Runtime.emit_to_space]; exact h1, h2⟩)
    (by rw [hs0, Runtime.emit_from_space]; exact hrel)
    (tracked_emit p rel s free _ rfl htr)
  exact ⟨tracked_emit p rel _ _ _ rfl hPF.1,
    fun hc => slotclause_emit p t0 _ _ (hPF.2.1 (slotclause_emit p t0 s _ hc)),
    fun hd => slotdone_emit p t0 _ _ (hPF.2.2 (slotdone_emit p t0 s _ hd))⟩

/-- One guarded scan step preserves the tracking state of `p`, the slot clause
and the processed state of `t0`. -/
theorem scanStep_tracked (st : Runtime × Nat × Nat) (p rel t0 B : Nat)
    (hgc : st.1.gc_log = true)
    (hp1 : st.1.from_space < p)
    (hp2 : p < st.1.from_space + st.1.heap_size / 2)
    (hsep : st.1.from_space + st.1.heap_size / 2 ≤ st.1.to_space)
    (hscan : st.1.to_space ≤ st.2.1)
    (hf0 : st.1.to_space ≤ st.2.2)
    (hfB : (scanStep st).2.2 ≤ B)
    (hBfit : B < st.1.to_space + st.1.heap_size / 2)
    (ht0 : t0 + 1 < st.1.from_space ∨ (st.1.to_space ≤ t0 ∧ B ≤ t0))
    (hrel : rel = p - st.1.from_space)
    (htr : Tracked p rel st.1 st.2.2) :
    Tracked p rel (scanStep st).1 (scanStep st).2.2 ∧
    (SlotClause p t0 st.1 → SlotClause p t0 (scanStep st).1) ∧
    (SlotDone p t0 st.1 → SlotDone p t0 (scanStep st).1) := by
  by_cases h : st.2.1 < st.2.2
  · rw [scanStep_active st h] at hfB ⊢
    exact scan_object_tracked st.1 st.2.1 st.2.2 p rel t0 B hgc hp1 hp2 hsep
      hscan hf0 hfB hBfit ht0 hrel htr
  · rw [scanStep_done st h] at hfB ⊢
    exact ⟨htr, fun hc => hc, fun hd => hd⟩

/-- The fuel-indexed scan loop preserves the tracking state of `p`, the slot
clause and the processed state of `t0`. -/
theorem scanRun_tracked (k : Nat) (st : Runtime × Nat × Nat) (p rel t0 B : Nat)
    (hgc : st.1.gc_log = true)
    (hp1 : st.1.from_space < p)
    (hp2 : p < st.1.from_space + st.1.heap_size / 2)
    (hsep : st.1.from_space + st.1.heap_size / 2 ≤ st.1.to_space)
    (hscan : st.1.to_space ≤ st.2.1)
    (hf0 : st.1.to_space ≤ st.2.2)
    (hfB : (scanRun k st).2.2 ≤ B)
    (hBfit : B < st.1.to_space + st.1.heap_size / 2)
    (ht0 : t0 + 1 < st.1.from_space ∨ (st.1.to_space ≤ t0 ∧ B ≤ t0))
    (hrel : rel = p - st.1.from_space)
    (htr : Tracked p rel st.1 st.2.2) :
    Tracked p rel (scanRun k st).1 (scanRun k st).2.2 ∧
    (SlotClause p t0 st.1 → SlotClause p t0 (scanRun k st).1) ∧
    (SlotDone p t0 st.1 → SlotDone p t0 (scanRun k st).1) := by
  induction k generalizing st with
  | zero => exact ⟨htr, fun hc => hc, fun hd => hd⟩
  | succ k ih =>
      have hrun : scanRun (k + 1) st = scanRun k (scanStep st) := rfl
      rw [hrun] at hfB ⊢
      have hglob := scanStep_globals st
      have hsB : (scanStep st).2.2 ≤ B :=
        le_trans (scanRun_free_mono k (scanStep st)) hfB
      have hstep := scanStep_tracked st p rel t0 B hgc hp1 hp2 hsep hscan hf0
        hsB hBfit ht0 hrel htr
      have hnext := ih (scanStep st)
        (hglob.2.2.2.2.2.trans hgc)
        (by rw [hglob.2.1]; exact hp1)
        (by rw [hglob.2.1, hglob.1]; exact hp2)
        (by rw [hglob.2.1, hglob.1, hglob.2.2.1]; exact hsep)
        (by rw [hglob.2.2.1]; exact le_trans hscan (scanStep_scan_mono st))
        (by rw [hglob.2.2.1]; exact le_trans hf0 (scanStep_free_mono st))
        hfB
        (by rw [hglob.2.2.1, hglob.1]; exact hBfit)
        (by rcases ht0 with h | ⟨h1, h2⟩
            · exact Or.inl (by rw [hglob.2.1]; exact h)
            · exact Or.inr ⟨by rw [hglob.2.2.1]; exact h1, h2⟩)
        (by rw [hglob.2.1]; exact hrel)
        hstep.1
      exact ⟨hnext.1, fun hc => hnext.2.1 (hstep.2.1 hc),
        fun hd => hnext.2.2 (hstep.2.2 hd)⟩

/-- Processing the root slots of one frame preserves the tracking state of
`p`, the slot clause and the processed state of `t0`; moreover, when `t0` is
one of the processed slots and still held `p` (or already held the forwarding
address), afterwards `t0` holds the forwarding address of `p`'s copy. -/
theorem processRootSlots_tracked (offs : List Nat) (s : Runtime)
    (free frame p rel t0 B : Nat)
    (hgc : s.gc_log = true)
    (hp1 : s.from_space < p) (hp2 : p < s.from_space + s.heap_size / 2)
    (hsep : s.from_space + s.heap_size / 2 ≤ s.to_space)
    (hoffs : ∀ i ∈ offs, frame - 2 - i + 1 < s.from_space ∨
      s.to_space ≤ frame - 2 - i)
    (hf0 : s.to_space ≤ free)
    (hfB : (processRootSlots s free frame offs).2 ≤ B)
    (hBfit : B < s.to_space + s.heap_size / 2)
    (ht0 : t0 + 1 < s.from_space ∨ (s.to_space ≤ t0 ∧ B ≤ t0))
    (hrel : rel = p - s.from_space)
    (htr : Tracked p rel s free) :
    Tracked p rel (processRootSlots s free frame offs).1
      (processRootSlots s free frame offs).2 ∧
    (SlotClause p t0 s →
      SlotClause p t0 (processRootSlots s free frame offs).1) ∧
    (SlotDone p t0 s → SlotDone p t0 (processRootSlots s free frame offs).1) ∧
    ((∃ i ∈ offs, t0 = frame - 2 - i) → SlotClause p t0 s →
      SlotDone p t0 (processRootSlots s free frame offs).1) := by
  induction offs generalizing s free with
  | nil =>
      refine ⟨htr, fun hc => hc, fun hd => hd, ?_⟩
      intro hmem _
      obtain ⟨i, hi, _⟩ := hmem
      exact absurd hi (List.not_mem_nil i)
  | cons i rest ih =>
      simp only [processRootSlots] at hfB ⊢
      set s1 := s.emit [LogEvent.ptrOffset i] with hs1
      set r := process_transitive s1 (frame - 2 - i) free with hr
      have hgc1 : s1.gc_log = true := by
        rw [hs1, Runtime.emit_gc_log]
        exact hgc
      have hp11 : s1.from_space < p := by
        rw [hs1, Runtime.emit_from_space]
        exact hp1
      have hp21 : p < s1.from_space + s1.heap_size / 2 := by
        rw [hs1, Runtime.emit_from_space, Runtime.emit_heap_size]
        exact hp2
      have hsep1 : s1.from_space + s1.heap_size / 2 ≤ s1.to_space := by
        rw [hs1, Runtime.emit_from_space, Runtime.emit_heap_size,
          Runtime.emit_to_space]
        exact hsep
      have hti : frame - 2 - i + 1 < s1.from_space ∨
          s1.to_space ≤ frame - 2 - i := by
        rw [hs1, Runtime.emit_from_space, Runtime.emit_to_space]
        exact hoffs i (List.mem_cons_self i rest)
      have hf01 : s1.to_space ≤ free := by
        rw [hs1, Runtime.emit_to_space]
        exact hf0
      have hcall : r.2 ≤ B := by
        rw [hr]
        exact le_trans (processRootSlots_free_mono rest _ _ frame) hfB
      have hBfit1 : B < s1.to_space + s1.heap_size / 2 := by
        rw [hs1, Runtime.emit_to_space, Runtime.emit_heap_size]
        exact hBfit
      have ht01 : t0 + 1 < s1.from_space ∨ (s1.to_space ≤ t0 ∧ B ≤ t0) := by
        rcases ht0 with h | ⟨h1, h2⟩
        · exact Or.inl (by rw [hs1, Runtime.emit_from_space]; exact h)
        · exact Or.inr ⟨by rw [hs1, Runtime.emit_to_space]; exact h1, h2⟩
      have hrel1 : rel = p - s1.from_space := by
        rw [hs1, Runtime.emit_from_space]
        exact hrel
      have hstep := pt_step s1 (frame - 2 - i) free p rel t0 B hgc1 hp11 hp21
        hsep1 hti hf01 hcall hBfit1 ht01 hrel1
        (tracked_emit p rel s free _ rfl htr)
      have hdone := pt_done s1 (frame - 2 - i) free p t0 B hp11 hp21 hsep1
        hti hf01 hcall ht01
      have hglob1 : sameGlobals s1 r.1 := pt_globals s1 (frame - 2 - i) free
      have hgcr : r.1.gc_log = true := hglob1.2.2.2.2.2.trans hgc1
      have hp1r : r.1.from_space < p := by
        rw [hglob1.2.1]
        exact hp11
      have hp2r : p < r.1.from_space + r.1.heap_size / 2 := by
        rw [hglob1.2.1, hglob1.1]
        exact hp21
      have hsepr : r.1.from_space + r.1.heap_size / 2 ≤ r.1.to_space := by
        rw [hglob1.2.1, hglob1.1, hglob1.2.2.1]
        exact hsep1
      have hoffsr : ∀ j ∈ rest, frame - 2 - j + 1 < r.1.from_space ∨
          r.1.to_space ≤ frame - 2 - j := by
        intro j hj
        rcases hoffs j (List.mem_cons_of_mem i hj) with h | h
        · exact Or.inl (by
            rw [hglob1.2.1, hs1, Runtime.emit_from_space]
            exact h)
        · exact Or.inr (by
            rw [hglob1.2.2.1, hs1, Runtime.emit_to_space]
            exact h)
      have hf0r : r.1.to_space ≤ r.2 := by
        rw [hglob1.2.2.1]
        exact le_trans hf01 (by rw [hr]; exact pt_free_mono s1 _ free)
      have hBfitr : B < r.1.to_space + r.1.heap_size / 2 := by
        rw [hglob1.2.2.1, hglob1.1]
        exact hBfit1
      have ht0r : t0 + 1 < r.1.from_space ∨ (r.1.to_space ≤ t0 ∧ B ≤ t0) := by
        rcases ht01 with h | ⟨h1, h2⟩
        · exact Or.inl (by rw [hglob1.2.1]; exact h)
        · exact Or.inr ⟨by rw [hglob1.2.2.1]; exact h1, h2⟩
      have hrelr : rel = p - r.1.from_space := by
        rw [hglob1.2.1]
        exact hrel1
      have hnext := ih r.1 r.2 hgcr hp1r hp2r hsepr hoffsr hf0r hfB hBfitr
        ht0r hrelr hstep.1
      refine ⟨hnext.1, fun hc => hnext.2.1 (hstep.2.1 (slotclause_emit p t0 s _ hc)),
        fun hd => hnext.2.2.1 (hdone (slotdone_emit p t0 s _ hd)), ?_⟩
      intro hmem hc
      obtain ⟨j, hj, hjt⟩ := hmem
      have hcs1 : SlotClause p t0 s1 := slotclause_emit p t0 s _ hc
      rcases List.mem_cons.mp hj with hj0 | hjr
      · have hteq : frame - 2 - i = t0 := by
          rw [hjt, hj0]
        have h3 := hstep.2.2 hteq hcs1
        have hdone1 : SlotDone p t0 r.1 := by
          unfold SlotDone
          refine ⟨⟨?_, ?_⟩, h3.2⟩
          · rw [hglob1.2.2.1]
            exact h3.1.1
          · rw [hglob1.2.2.1, hglob1.1]
            exact h3.1.2
        exact hnext.2.2.1 hdone1
      · exact hnext.2.2.2 ⟨j, hjr, hjt⟩ (hstep.2.1 hcs1)

/-- Processing a list of `(frame base, root count)` pairs preserves the
tracking state of `p`, the slot clause and the processed state of `t0`;
moreover, when `t0` is a root slot of one of the frames and referenced `p`,
afterwards `t0` holds the forwarding address of `p`'s copy. -/
theorem processFramesC_tracked (pairs : List (Nat × Nat)) (s : Runtime)
    (free idx p rel t0 B : Nat)
    (hgc : s.gc_log = true)
    (hp1 : s.from_space < p) (hp2 : p < s.from_space + s.heap_size / 2)
    (hsep : s.from_space + s.heap_size / 2 ≤ s.to_space)
    (hpairs : ∀ q ∈ pairs, ∀ i, i < q.2 →
      q.1 - 2 - i + 1 < s.from_space ∨ s.to_space ≤ q.1 - 2 - i)
    (hf0 : s.to_space ≤ free)
    (hfB : (processFramesC s free idx pairs).2 ≤ B)
    (hBfit : B < s.to_space + s.heap_size / 2)
    (ht0 : t0 + 1 < s.from_space ∨ (s.to_space ≤ t0 ∧ B ≤ t0))
    (hrel : rel = p - s.from_space)
    (htr : Tracked p rel s free) :
    Tracked p rel (processFramesC s free idx pairs).1
      (processFramesC s free idx pairs).2 ∧
    (SlotClause p t0 s →
      SlotClause p t0 (processFramesC s free idx pairs).1) ∧
    (SlotDone p t0 s → SlotDone p t0 (processFramesC s free idx pairs).1) ∧
    ((∃ q ∈ pairs, ∃ i, i < q.2 ∧ t0 = q.1 - 2 - i) → SlotClause p t0 s →
      SlotDone p t0 (processFramesC s free idx pairs).1) := by
  induction pairs generalizing s free idx with
  | nil =>
      refine ⟨htr, fun hc => hc, fun hd => hd, ?_⟩
      intro hmem _
      obtain ⟨q, hq, _⟩ := hmem
      exact absurd hq (List.not_mem_nil q)
  | cons q rest ih =>
      obtain ⟨g, cnt⟩ := q
      simp only [processFramesC] at hfB ⊢
      set s1 := s.emit [LogEvent.frameLine idx cnt] with hs1
      set r := processRootSlots s1 free g (List.range cnt) with hr
      have hgc1 : s1.gc_log = true := by
        rw [hs1, Runtime.emit_gc_log]
        exact hgc
      have hp11 : s1.from_space < p := by
        rw [hs1, Runtime.emit_from_space]
        exact hp1
      have hp21 : p < s1.from_space + s1.heap_size / 2 := by
        rw [hs1, Runtime.emit_from_space, Runtime.emit_heap_size]
        exact hp2
      have hsep1 : s1.from_space + s1.heap_size / 2 ≤ s1.to_space := by
        rw [hs1, Runtime.emit_from_space, Runtime.emit_heap_size,
          Runtime.emit_to_space]
        exact hsep
      have hoffs1 : ∀ i ∈ List.range cnt, g - 2 - i + 1 < s1.from_space ∨
          s1.to_space ≤ g - 2 - i := by
        intro i hi
        rcases hpairs (g, cnt) (List.mem_cons_self _ rest) i
            (List.mem_range.mp hi) with h | h
        · exact Or.inl (by rw [hs1, Runtime.emit_from_space]; exact h)
        · exact Or.inr (by rw [hs1, Runtime.emit_to_space]; exact h)
      have hf01 : s1.to_space ≤ free := by
        rw [hs1, Runtime.emit_to_space]
        exact hf0
      have hcall : (processRootSlots s1 free g (List.range cnt)).2 ≤ B := by
        exact le_trans (processFramesC_free_mono rest r.1 r.2 (idx + 1)) hfB
      have hBfit1 : B < s1.to_space + s1.heap_size / 2 := by
        rw [hs1, Runtime.emit_to_space, Runtime.emit_heap_size]
        exact hBfit
      have ht01 : t0 + 1 < s1.from_space ∨ (s1.to_space ≤ t0 ∧ B ≤ t0) := by
        rcases ht0 with h | ⟨h1, h2⟩
        · exact Or.inl (by rw [hs1, Runtime.emit_from_space]; exact h)
        · exact Or.inr ⟨by rw [hs1, Runtime.emit_to_space]; exact h1, h2⟩
      have hrel1 : rel = p - s1.from_space := by
        rw [hs1, Runtime.emit_from_space]
        exact hrel
      have hstep := processRootSlots_tracked (List.range cnt) s1 free g p rel
        t0 B hgc1 hp11 hp21 hsep1 hoffs1 hf01 hcall hBfit1 ht01 hrel1
        (tracked_emit p rel s free _ rfl htr)
      have hglob1 : sameGlobals s1 r.1 := by
        rw [hr]
        exact processRootSlots_globals _ _ _ _
      have hgcr : r.1.gc_log = true := hglob1.2.2.2.2.2.trans hgc1
      have hp1r : r.1.from_space < p := by
        rw [hglob1.2.1]
        exact hp11
      have hp2r : p < r.1.from_space + r.1.heap_size / 2 := by
        rw [hglob1.2.1, hglob1.1]
        exact hp21
      have hsepr : r.1.from_space + r.1.heap_size / 2 ≤ r.1.to_space := by
        rw [hglob1.2.1, hglob1.1, hglob1.2.2.1]
        exact hsep1
      have hpairsr : ∀ q ∈ rest, ∀ i, i < q.2 →
          q.1 - 2 - i + 1 < r.1.from_space ∨ r.1.to_space ≤ q.1 - 2 - i := by
        intro q hq i hi
        rcases hpairs q (List.mem_cons_of_mem _ hq) i hi with h | h
        · exact Or.inl (by
            rw [hglob1.2.1, hs1, Runtime.emit_from_space]
            exact h)
        · exact Or.inr (by
            rw [hglob1.2.2.1, hs1, Runtime.emit_to_space]
            exact h)
      have hf0r : r.1.to_space ≤ r.2 := by
        rw [hglob1.2.2.1]
        exact le_trans hf01 (by
          rw [hr]
          exact processRootSlots_free_mono _ _ _ _)
      have hBfitr : B < r.1.to_space + r.1.heap_size / 2 := by
        rw [hglob1.2.2.1, hglob1.1]
        exact hBfit1
      have ht0r : t0 + 1 < r.1.from_space ∨ (r.1.to_space ≤ t0 ∧ B ≤ t0) := by
        rcases ht01 with h | ⟨h1, h2⟩
        · exact Or.inl (by rw [hglob1.2.1]; exact h)
        · exact Or.inr ⟨by rw [hglob1.2.2.1]; exact h1, h2⟩
      have hrelr : rel = p - r.1.from_space := by
        rw [hglob1.2.1]
        exact hrel1
      have hnext := ih r.1 r.2 (idx + 1) hgcr hp1r hp2r hsepr hpairsr hf0r
        hfB hBfitr ht0r hrelr hstep.1
      refine ⟨hnext.1,
        fun hc => hnext.2.1 (hstep.2.1 (slotclause_emit p t0 s _ hc)),
        fun hd => hnext.2.2.1 (hstep.2.2.1 (slotdone_emit p t0 s _ hd)), ?_⟩
      intro hmem hc
      obtain ⟨q, hq, i, hi, hti⟩ := hmem
      have hcs1 : SlotClause p t0 s1 := slotclause_emit p t0 s _ hc
      rcases List.mem_cons.mp hq with hq0 | hqr
      · have hd1 : SlotDone p t0 r.1 := by
          apply hstep.2.2.2 _ hcs1
          refine ⟨i, List.mem_range.mpr ?_, ?_⟩
          · rw [hq0] at hi
            exact hi
          · rw [hq0] at hti
            exact hti
        exact hnext.2.2.1 hd1
      · exact hnext.2.2.2 ⟨q, hqr, i, hi, hti⟩ (hstep.2.1 hcs1)

/-- The two full collection phases (root walk, then scan) preserve the
tracking state of the from-space object `p` and the slot clause of `t0`;
when `t0` is a root slot of a visited frame that referenced `p`, at the end
of the phases `t0` holds the forwarding address of `p`'s unique copy.  The
chain hypotheses are the compiler's stack-layout contract (as in the root-walk
theorem); `hroots` asks the root slots themselves to lie below the heap or at
or above to-space. -/
theorem gc_phases_tracked (f1 f2 : Nat) (s : Runtime) (top p rel t0 B : Nat)
    (hgc : s.gc_log = true)
    (hp1 : s.from_space < p) (hp2 : p < s.from_space + s.heap_size / 2)
    (hsep : s.from_space + s.heap_size / 2 ≤ s.to_space)
    (hchain_sep : ∀ g ∈ frameChain f1 s.mem s.base_frame_ptr top,
      s.from_space + s.heap_size / 2 ≤ g - 1)
    (hchain_free : ∀ g ∈ frameChain f1 s.mem s.base_frame_ptr top,
      (walkFrames f1 s s.base_frame_ptr top 0 s.to_space).2 ≤ g - 1)
    (hchain_slots : ∀ f ∈ frameChain f1 s.mem s.base_frame_ptr top,
      ∀ g ∈ frameChain f1 s.mem s.base_frame_ptr top,
        ∀ i, i < s.mem (f - 1) → f - 2 - i ≠ g ∧ f - 2 - i ≠ g - 1)
    (hroots : ∀ g ∈ frameChain f1 s.mem s.base_frame_ptr top,
      ∀ i, i < s.mem (g - 1) →
        g - 2 - i + 1 < s.from_space ∨ s.to_space ≤ g - 2 - i)
    (hfB : (gc_phases f1 f2 s top).2.2 ≤ B)
    (hBfit : B < s.to_space + s.heap_size / 2)
    (ht0 : t0 + 1 < s.from_space ∨ (s.to_space ≤ t0 ∧ B ≤ t0))
    (hrel : rel = p - s.from_space)
    (htr : Tracked p rel s s.to_space) :
    Tracked p rel (gc_phases f1 f2 s top).1 (gc_phases f1 f2 s top).2.2 ∧
    (SlotClause p t0 s → SlotClause p t0 (gc_phases f1 f2 s top).1) ∧
    ((∃ g ∈ frameChain f1 s.mem s.base_frame_ptr top,
        ∃ i, i < s.mem (g - 1) ∧ t0 = g - 2 - i) → SlotClause p t0 s →
      SlotDone p t0 (gc_phases f1 f2 s top).1) := by
  have hwalk := walkFrames_chain f1 s s.base_frame_ptr top 0 s.to_space
    hchain_sep hchain_free hchain_slots
  rw [gc_phases_eq] at hfB ⊢
  rw [hwalk] at hfB ⊢
  set pairs := (frameChain f1 s.mem s.base_frame_ptr top).map
    (fun f => (f, s.mem (f - 1))) with hpairs_def
  set W := processFramesC s s.to_space 0 pairs with hW
  have hWf : s.to_space ≤ W.2 := by
    rw [hW]
    exact processFramesC_free_mono pairs s s.to_space 0
  have hfB' : W.2 ≤ B :=
    le_trans (scanRun_free_mono f2 (W.1.emit [LogEvent.scanStart],
      s.to_space, W.2)) hfB
  have hpairs : ∀ q ∈ pairs, ∀ i, i < q.2 →
      q.1 - 2 - i + 1 < s.from_space ∨ s.to_space ≤ q.1 - 2 - i := by
    intro q hq i hi
    rw [hpairs_def] at hq
    obtain ⟨g, hg, hgq⟩ := List.mem_map.mp hq
    rw [← hgq] at hi ⊢
    exact hroots g hg i hi
  have hPF := processFramesC_tracked pairs s s.to_space 0 p rel t0 B hgc hp1
    hp2 hsep hpairs (le_refl _) hfB' hBfit ht0 hrel htr
  have hgW : sameGlobals s W.1 := by
    rw [← hwalk]
    exact walkFrames_globals f1 s s.base_frame_ptr top 0 s.to_space
  set st : Runtime × Nat × Nat :=
    (W.1.emit [LogEvent.scanStart], s.to_space, W.2) with hst
  have hst1 : st.1 = W.1.emit [LogEvent.scanStart] := rfl
  have hgcst : st.1.gc_log = true := by
    rw [hst1, Runtime.emit_gc_log]
    exact hgW.2.2.2.2.2.trans hgc
  have hfrst : st.1.from_space = s.from_space := by
    rw [hst1, Runtime.emit_from_space]
    exact hgW.2.1
  have htost : st.1.to_space = s.to_space := by
    rw [hst1, Runtime.emit_to_space]
    exact hgW.2.2.1
  have hhpst : st.1.heap_size = s.heap_size := by
    rw [hst1, Runtime.emit_heap_size]
    exact hgW.1
  have hSR := scanRun_tracked f2 st p rel t0 B hgcst
    (by rw [hfrst]; exact hp1)
    (by rw [hfrst, hhpst]; exact hp2)
    (by rw [hfrst, hhpst, htost]; exact hsep)
    (by rw [htost])
    (by rw [htost]; exact hWf)
    hfB
    (by rw [htost, hhpst]; exact hBfit)
    (by rcases ht0 with h | ⟨h1, h2⟩
        · exact Or.inl (by rw [hfrst]; exact h)
        · exact Or.inr ⟨by rw [htost]; exact h1, h2⟩)
    (by rw [hfrst]; exact hrel)
    (tracked_emit p rel W.1 W.2 _ rfl hPF.1)
  refine ⟨hSR.1, fun hc => hSR.2.1 (slotclause_emit p t0 W.1 _ (hPF.2.1 hc)),
    ?_⟩
  intro hmem hc
  apply hSR.2.2
  apply slotdone_emit p t0 W.1
  apply hPF.2.2.2 _ hc
  obtain ⟨g, hg, i, hi, hti⟩ := hmem
  exact ⟨(g, s.mem (g - 1)), by
    rw [hpairs_def]
    exact List.mem_map_of_mem _ hg, i, hi, hti⟩

/-- `gc_collect` leaves the memory of the end of the two phases unchanged:
the trailing swap-line print, space swap and bump reset write no word. -/
theorem gc_collect_mem (f1 f2 : Nat) (s : Runtime) (top : Nat) :
    (gc_collect f1 f2 s top).mem = (gc_phases f1 f2 s top).1.mem := by
  show ((gc_phases f1 f2 s top).1.emit
      [LogEvent.swapLine ((gc_phases f1 f2 s top).2.2 -
        (gc_phases f1 f2 s top).1.to_space)]).mem = _
  exact Runtime.emit_mem _ _

/-- The trailing swap-line print adds no `copying object` line: `gc_collect`
and the two phases agree on every copy count. -/
theorem gc_collect_log_count (f1 f2 : Nat) (s : Runtime) (top rel : Nat) :
    copyCount rel (gc_collect f1 f2 s top).log =
      copyCount rel (gc_phases f1 f2 s top).1.log := by
  show copyCount rel ((gc_phases f1 f2 s top).1.emit
      [LogEvent.swapLine ((gc_phases f1 f2 s top).2.2 -
        (gc_phases f1 f2 s top).1.to_space)]).log = _
  exact emit_copyCount_zero _ _ _ rfl

/-- **C3.** Within a single collection (`gc_collect`, covering the root walk
and the scan phase), every from-space object is copied into to-space at most
once: at most one `---- copying object` log line is ever printed for its
relative address, the forwarding check short-circuiting every repeat visit,
whether it comes from a root slot or from a field forwarded during the scan.
And every root slot that referenced the same from-space object `p` before the
collection holds the same to-space payload address (the forwarding address
stored in `p`'s old header, which lies inside to-space) afterward — aliasing /
pointer equality is preserved, with exactly one copy logged.  Hypotheses:
logging is on and the log starts empty, `p` is a from-space payload address
whose header is not already forwarded, from-space lies below to-space, the
compiler's stack-layout contract holds for the visited frames (as in the
root-walk theorem), every root slot of a visited frame lies below the heap or
at/above the collection's final free cursor, and the copied data fits within
to-space. -/
theorem gc_collect_copies_once_preserves_aliasing (f1 f2 : Nat) (s : Runtime)
    (top p : Nat)
    (hgc : s.gc_log = true)
    (hlog : s.log = [])
    (hp1 : s.from_space < p) (hp2 : p < s.from_space + s.heap_size / 2)
    (hfresh : ¬ (s.to_space ≤ s.mem (p - 1) ∧
      s.mem (p - 1) < s.to_space + s.heap_size / 2))
    (hsep : s.from_space + s.heap_size / 2 ≤ s.to_space)
    (hchain_sep : ∀ g ∈ frameChain f1 s.mem s.base_frame_ptr top,
      s.from_space + s.heap_size / 2 ≤ g - 1)
    (hchain_free : ∀ g ∈ frameChain f1 s.mem s.base_frame_ptr top,
      (walkFrames f1 s s.base_frame_ptr top 0 s.to_space).2 ≤ g - 1)
    (hchain_slots : ∀ f ∈ frameChain f1 s.mem s.base_frame_ptr top,
      ∀ g ∈ frameChain f1 s.mem s.base_frame_ptr top,
        ∀ i, i < s.mem (f - 1) → f - 2 - i ≠ g ∧ f - 2 - i ≠ g - 1)
    (hroots : ∀ g ∈ frameChain f1 s.mem s.base_frame_ptr top,
      ∀ i, i < s.mem (g - 1) →
        g - 2 - i + 1 < s.from_space ∨
          (gc_phases f1 f2 s top).2.2 ≤ g - 2 - i)
    (hfit : (gc_phases f1 f2 s top).2.2 < s.to_space + s.heap_size / 2) :
    copyCount (p - s.from_space) (gc_collect f1 f2 s top).log ≤ 1 ∧
    (∀ t0, (∃ g ∈ frameChain f1 s.mem s.base_frame_ptr top,
        ∃ i, i < s.mem (g - 1) ∧ t0 = g - 2 - i) → s.mem t0 = p →
      (s.to_space ≤ (gc_collect f1 f2 s top).mem (p - 1) ∧
        (gc_collect f1 f2 s top).mem (p - 1) <
          s.to_space + s.heap_size / 2) ∧
      (gc_collect f1 f2 s top).mem t0 = (gc_collect f1 f2 s top).mem (p - 1) ∧
      copyCount (p - s.from_space) (gc_collect f1 f2 s top).log = 1) := by
  have hB0 : s.to_space ≤ (gc_phases f1 f2 s top).2.2 := by
    rw [gc_phases_eq]
    exact le_trans
      (walkFrames_free_mono f1 s s.base_frame_ptr top 0 s.to_space)
      (scanRun_free_mono f2
        ((walkFrames f1 s s.base_frame_ptr top 0 s.to_space).1.emit
          [LogEvent.scanStart], s.to_space,
          (walkFrames f1 s s.base_frame_ptr top 0 s.to_space).2))
  have htr0 : Tracked p (p - s.from_space) s s.to_space :=
    Or.inl ⟨hfresh, by rw [hlog]; rfl⟩
  have hroots' : ∀ g ∈ frameChain f1 s.mem s.base_frame_ptr top,
      ∀ i, i < s.mem (g - 1) →
        g - 2 - i + 1 < s.from_space ∨ s.to_space ≤ g - 2 - i := by
    intro g hg i hi
    rcases hroots g hg i hi with h | h
    · exact Or.inl h
    · exact Or.inr (le_trans hB0 h)
  have hgpg : sameGlobals s (gc_phases f1 f2 s top).1 :=
    gc_phases_globals f1 f2 s top
  constructor
  · have hGP := gc_phases_tracked f1 f2 s top p (p - s.from_space)
      ((gc_phases f1 f2 s top).2.2) ((gc_phases f1 f2 s top).2.2)
      hgc hp1 hp2 hsep hchain_sep hchain_free hchain_slots hroots'
      (le_refl _) hfit (Or.inr ⟨hB0, le_refl _⟩) rfl htr0
    rw [gc_collect_log_count]
    have hT := hGP.1
    unfold Tracked at hT
    rcases hT with ⟨_, h0⟩ | ⟨_, _, h1⟩
    · omega
    · omega
  · intro t0 hmem hpt0
    have ht0 : t0 + 1 < s.from_space ∨
        (s.to_space ≤ t0 ∧ (gc_phases f1 f2 s top).2.2 ≤ t0) := by
      obtain ⟨g, hg, i, hi, hti⟩ := hmem
      rcases hroots g hg i hi with h | h
      · exact Or.inl (by rw [hti]; exact h)
      · exact Or.inr ⟨by rw [hti]; exact le_trans hB0 h,
          by rw [hti]; exact h⟩
    have hGP := gc_phases_tracked f1 f2 s top p (p - s.from_space) t0
      ((gc_phases f1 f2 s top).2.2)
      hgc hp1 hp2 hsep hchain_sep hchain_free hchain_slots hroots'
      (le_refl _) hfit ht0 rfl htr0
    have hSD : SlotDone p t0 (gc_phases f1 f2 s top).1 :=
      hGP.2.2 hmem (Or.inl hpt0)
    have hcnt1 : copyCount (p - s.from_space)
        (gc_phases f1 f2 s top).1.log = 1 := by
      have hT := hGP.1
      unfold Tracked at hT
      rcases hT with ⟨hA, _⟩ | ⟨_, _, h1⟩
      · exact absurd hSD.1 hA
      · exact h1
    refine ⟨⟨?_, ?_⟩, ?_, ?_⟩
    · rw [gc_collect_mem]
      have h := hSD.1.1
      rw [hgpg.2.2.1] at h
      exact h
    · rw [gc_collect_mem]
      have h := hSD.1.2
      rw [hgpg.2.2.1, hgpg.1] at h
      exact h
    · rw [gc_collect_mem]
      exact hSD.2
    · rw [gc_collect_log_count]
      exact hcnt1

/-- A collection scenario with two aliasing roots: one frame (base 490,
terminator 500) with root count 2, whose slots 488 and 487 both hold the
from-space payload address 101 (header 10 at 100: tag 2, length 1). -/
def gcAliasState : Runtime :=
  { heap_size := 16, from_space := 100, to_space := 108, bump_ptr := 104,
    base_frame_ptr := 500, gc_log := true,
    mem := fun x =>
      if x = 490 then 500 else if x = 489 then 2 else
      if x = 488 then 101 else if x = 487 then 101 else
      if x = 100 then 10 else if x = 101 then 42 else 0,
    log := [] }

theorem gc_collect_copies_once_preserves_aliasing_witness :
    copyCount 1 (gc_collect 2 2 gcAliasState 490).log ≤ 1 ∧
    (gc_collect 2 2 gcAliasState 490).mem 488 =
      (gc_collect 2 2 gcAliasState 490).mem (101 - 1) ∧
    (gc_collect 2 2 gcAliasState 490).mem 487 =
      (gc_collect 2 2 gcAliasState 490).mem (101 - 1) ∧
    copyCount 1 (gc_collect 2 2 gcAliasState 490).log = 1 := by
  have h := gc_collect_copies_once_preserves_aliasing 2 2 gcAliasState 490 101
    (by decide) (by decide) (by decide) (by decide) (by decide) (by decide)
    (by decide) (by decide) (by decide) (by decide) (by decide)
  have h488 := h.2 488 ⟨490, by decide, 0, by decide, by decide⟩ (by decide)
  have h487 := h.2 487 ⟨490, by decide, 1, by decide, by decide⟩ (by decide)
  exact ⟨h.1, h488.2.1, h487.2.1, h488.2.2⟩

end CflatGC
